import Mathlib

/-!
# sql2csv: the streaming CSV export of `cmd/root.go`

A shallow embedding of the export pipeline of `cmd/root.go`:

* `san`, the cell sanitizer, together with the Go library functions it is
  composed of (`bytes.ToValidUTF8`, `bytes.Map`, `bytes.ReplaceAll`,
  `bytes.Trim`, `utf8.DecodeRune`, `utf8.AppendRune`, `unicode.IsGraphic`,
  `unicode.IsSpace`);
* `Run` and `PostRun` of `rootCmd`, over an explicit state holding the
  `bufio.Writer` `Csv`, the file behind it and the counters of the cursor.

Bytes and runes are natural numbers.  A Go byte is a number below 256; the
decoder treats every number from `0xF5` on as an invalid lead byte, so a
statement over all lists of numbers covers all byte sequences.
-/

namespace Sql2csv

/-! ## `unicode/utf8` -/

/-- The constants `RuneError`, `RuneSelf` and `MaxRune` of `unicode/utf8`. -/
def RuneError : Nat := 0xFFFD
def RuneSelf : Nat := 0x80
def MaxRune : Nat := 0x10FFFF

/-- The tables `first` and `acceptRanges` of `unicode/utf8`: for a lead byte
the size of the sequence and the range accepted for its second byte; `none`
for a byte that starts no multi-byte sequence. -/
def leadInfo (b : Nat) : Option (Nat × Nat × Nat) :=
  if b < 0xC2 then none
  else if b ≤ 0xDF then some (2, 0x80, 0xBF)
  else if b = 0xE0 then some (3, 0xA0, 0xBF)
  else if b ≤ 0xEC then some (3, 0x80, 0xBF)
  else if b = 0xED then some (3, 0x80, 0x9F)
  else if b ≤ 0xEF then some (3, 0x80, 0xBF)
  else if b = 0xF0 then some (4, 0x90, 0xBF)
  else if b ≤ 0xF3 then some (4, 0x80, 0xBF)
  else if b = 0xF4 then some (4, 0x80, 0x8F)
  else none

/-- Continuation byte: `locb ≤ b ≤ hicb`. -/
def isCont (b : Nat) : Bool := 0x80 ≤ b && b ≤ 0xBF

/-- Go's `utf8.DecodeRune`: the first rune of `p` and its width in bytes;
`(RuneError, 0)` for empty input and `(RuneError, 1)` for an ill-formed
sequence.  Masks and shifts are written with `%` and `*`. -/
def DecodeRune : List Nat → Nat × Nat
  | [] => (RuneError, 0)
  | p0 :: rest =>
    if p0 < RuneSelf then (p0, 1)
    else
      match leadInfo p0 with
      | none => (RuneError, 1)
      | some (sz, lo, hi) =>
        if rest.length + 1 < sz then (RuneError, 1)
        else
          match rest with
          | [] => (RuneError, 1)
          | b1 :: rest1 =>
            if b1 < lo || hi < b1 then (RuneError, 1)
            else if sz ≤ 2 then (p0 % 32 * 64 + b1 % 64, 2)
            else
              match rest1 with
              | [] => (RuneError, 1)
              | b2 :: rest2 =>
                if !isCont b2 then (RuneError, 1)
                else if sz ≤ 3 then (p0 % 16 * 4096 + b1 % 64 * 64 + b2 % 64, 3)
                else
                  match rest2 with
                  | [] => (RuneError, 1)
                  | b3 :: _ =>
                    if !isCont b3 then (RuneError, 1)
                    else (p0 % 8 * 262144 + b1 % 64 * 4096 + b2 % 64 * 64 + b3 % 64, 4)

/-- Go's `utf8.AppendRune` on an empty slice: the UTF-8 encoding of `r`; a
surrogate or a rune above `MaxRune` is encoded as `RuneError`. -/
def EncodeRune (r : Nat) : List Nat :=
  if r ≤ 0x7F then [r]
  else if r ≤ 0x7FF then [0xC0 + r / 64, 0x80 + r % 64]
  else if MaxRune < r || (0xD800 ≤ r && r ≤ 0xDFFF) then [0xEF, 0xBF, 0xBD]
  else if r ≤ 0xFFFF then [0xE0 + r / 4096, 0x80 + r / 64 % 64, 0x80 + r % 64]
  else [0xF0 + r / 262144, 0x80 + r / 4096 % 64, 0x80 + r / 64 % 64, 0x80 + r % 64]

/-- The encoding of a sequence of runes, one after the other. -/
def encodeAll : List Nat → List Nat
  | [] => []
  | r :: rs => EncodeRune r ++ encodeAll rs

/-- A Unicode scalar value: at most `MaxRune` and no surrogate. -/
def validScalar (r : Nat) : Prop := r ≤ 0x10FFFF ∧ ¬ (0xD800 ≤ r ∧ r ≤ 0xDFFF)

instance (r : Nat) : Decidable (validScalar r) := by
  unfold validScalar; infer_instance

/-- The loop of `runes`; the fuel is the number of bytes. -/
def runesAux : Nat → List Nat → List Nat
  | 0, _ => []
  | _ + 1, [] => []
  | fuel + 1, c :: rest =>
    (DecodeRune (c :: rest)).1 :: runesAux fuel ((c :: rest).drop (DecodeRune (c :: rest)).2)

/-- The runes of a byte sequence as Go's `range` over `string(s)` yields
them: an ill-formed byte yields `RuneError` and is one byte wide. -/
def runes (s : List Nat) : List Nat := runesAux s.length s

/-- The loop of `Valid`; the fuel is the number of bytes. -/
def validAux : Nat → List Nat → Bool
  | 0, s => s.isEmpty
  | _ + 1, [] => true
  | fuel + 1, c :: rest =>
    if c < RuneSelf then validAux fuel rest
    else if (DecodeRune (c :: rest)).2 = 1 then false
    else validAux fuel ((c :: rest).drop (DecodeRune (c :: rest)).2)

/-- Go's `utf8.Valid`: the sequence consists entirely of well-formed encodings. -/
def Valid (s : List Nat) : Bool := validAux s.length s

/-! ## `unicode` -/

/-- Go's `unicode.IsControl`: the `pC` entries of the Latin-1 `properties` table;
no rune above Latin-1 is a control character. -/
def IsControl (r : Nat) : Bool := r < 0x20 || (0x7F ≤ r && r < 0xA0)

/-- The table `unicode.Zs` (space separators). -/
def Zs (r : Nat) : Bool :=
  r = 0x20 || r = 0xA0 || r = 0x1680 || (0x2000 ≤ r && r ≤ 0x200A) || r = 0x202F ||
    r = 0x205F || r = 0x3000

/-- Go's `unicode.IsGraphic`.  Up to `MaxLatin1` it reads the `properties` table
(`pg = pp | pZ`: `0x20` to `0x7E` and `0xA0` to `0xFF` except the soft hyphen
`0xAD`); above, it is membership in `GraphicRanges = {L, M, N, P, S, Zs}`.
The tables `L, M, N, P, S` of the Go library (`PrintRanges`) are the
parameter `pr`; `Zs` is given in full. -/
def IsGraphic (pr : Nat → Bool) (r : Nat) : Bool :=
  if r ≤ 0xFF then (0x20 ≤ r && r ≤ 0x7E) || (0xA0 ≤ r && r != 0xAD)
  else pr r || Zs r

/-- Go's `unicode.IsPrint`: as `IsGraphic`, but the only space is `U+0020`. -/
def IsPrint (pr : Nat → Bool) (r : Nat) : Bool :=
  if r ≤ 0xFF then (0x20 ≤ r && r ≤ 0x7E) || (0xA1 ≤ r && r != 0xAD)
  else pr r

/-- Go's `unicode.IsSpace`: the Latin-1 switch, then the table `White_Space`. -/
def IsSpace (r : Nat) : Bool :=
  if r ≤ 0xFF then
    r = 0x09 || r = 0x0A || r = 0x0B || r = 0x0C || r = 0x0D || r = 0x20 || r = 0x85 || r = 0xA0
  else
    r = 0x1680 || (0x2000 ≤ r && r ≤ 0x200A) || r = 0x2028 || r = 0x2029 || r = 0x202F ||
      r = 0x205F || r = 0x3000

/-! ## `bytes` -/

/-- The loop of `ToValidUTF8`; the fuel is the number of bytes. -/
def toValidAux (replacement : List Nat) : Nat → Bool → List Nat → List Nat
  | 0, _, _ => []
  | _ + 1, _, [] => []
  | fuel + 1, invalid, c :: rest =>
    if c < RuneSelf then c :: toValidAux replacement fuel false rest
    else if (DecodeRune (c :: rest)).2 = 1 then
      (if invalid then [] else replacement) ++ toValidAux replacement fuel true rest
    else
      (c :: rest).take (DecodeRune (c :: rest)).2 ++
        toValidAux replacement fuel false ((c :: rest).drop (DecodeRune (c :: rest)).2)

/-- Go's `bytes.ToValidUTF8`: every run of ill-formed bytes is replaced by
`replacement`; `invalid` records that the previous byte was ill-formed. -/
def ToValidUTF8 (s replacement : List Nat) : List Nat :=
  toValidAux replacement s.length false s

/-- The loop of `Map`; the fuel is the number of bytes. -/
def mapAux (mapping : Nat → Nat) : Nat → List Nat → List Nat
  | 0, _ => []
  | _ + 1, [] => []
  | fuel + 1, c :: rest =>
    if c < RuneSelf then EncodeRune (mapping c) ++ mapAux mapping fuel rest
    else
      EncodeRune (mapping (DecodeRune (c :: rest)).1) ++
        mapAux mapping fuel ((c :: rest).drop (DecodeRune (c :: rest)).2)

/-- Go's `bytes.Map` for a mapping that never returns a negative rune (the one of
`san` never does): every rune of `s` is decoded, mapped and encoded. -/
def Map (mapping : Nat → Nat) (s : List Nat) : List Nat := mapAux mapping s.length s

/-- The scan of `ReplaceAll` from left to right; the fuel is the number of
bytes. -/
def replaceAux (old new : List Nat) : Nat → List Nat → List Nat
  | 0, s => s
  | _ + 1, [] => []
  | fuel + 1, c :: rest =>
    if old.isPrefixOf (c :: rest) then new ++ replaceAux old new fuel ((c :: rest).drop old.length)
    else c :: replaceAux old new fuel rest

/-- Go's `bytes.ReplaceAll` for a non-empty `old` (both calls of `san` pass one):
the non-overlapping occurrences of `old`, leftmost first, are replaced by
`new`.  An empty `old` leaves `s` as it is here. -/
def ReplaceAll (s old new : List Nat) : List Nat :=
  if old = [] then s else replaceAux old new s.length s

/-- Go's `trimLeftByte`: the leading bytes equal to `c` are dropped. -/
def trimLeftByte (s : List Nat) (c : Nat) : List Nat := s.dropWhile (fun b => b == c)

/-- Go's `trimRightByte`: the trailing bytes equal to `c` are dropped. -/
def trimRightByte (s : List Nat) (c : Nat) : List Nat :=
  (s.reverse.dropWhile (fun b => b == c)).reverse

/-- Go's `bytes.Trim` for a cutset of one ASCII character `c`:
`trimLeftByte(trimRightByte(s, c), c)`.  (Older versions of the library trim
rune by rune with the same result, the byte `c` being no part of any
multi-byte encoding.) -/
def Trim (s : List Nat) (c : Nat) : List Nat := trimLeftByte (trimRightByte s c) c

/-! ## `san` -/

/-- The double quote. -/
def quote : Nat := 0x22

/-- The ordinary space `U+0020`. -/
def space : Nat := 0x20

/-- The mapping `san` passes to `bytes.Map`. -/
def sanMapping (pr : Nat → Bool) (r : Nat) : Nat :=
  if IsGraphic pr r then r
  else if IsSpace r then space
  else space

/-- The function `san` of `cmd/root.go`. -/
def san (pr : Nat → Bool) (input : List Nat) : List Nat :=
  Trim (ReplaceAll
    (ReplaceAll
      (Map (sanMapping pr) (ToValidUTF8 input []))
      [0xC2, 0xA0] [space])
    [quote] [quote, quote]) space

/-! ## `san`, rune by rune -/

/-- What the first `ReplaceAll` of `san` does to a rune. -/
def nbspToSpace (r : Nat) : Nat := if r = 0xA0 then space else r

/-- What the second `ReplaceAll` of `san` does to a rune. -/
def doubleQuote (r : Nat) : List Nat := if r = quote then [quote, quote] else [r]

/-- The four steps of `san` after `ToValidUTF8`, on runes instead of bytes. -/
def sanRunes (pr : Nat → Bool) (rs : List Nat) : List Nat :=
  Trim (((rs.map (sanMapping pr)).map nbspToSpace).flatMap doubleQuote) space

/-! ## Properties of sanitized text -/

/-- The scan of `quoteRunsEven`. -/
def quoteRunsEvenAux : Bool → List Nat → Bool
  | odd, [] => !odd
  | odd, c :: cs =>
    if c = quote then quoteRunsEvenAux (!odd) cs else !odd && quoteRunsEvenAux false cs

/-- Every maximal run of double quotes in `s` has even length.  The flag of
`quoteRunsEvenAux` tells whether the quotes read so far in the current run
are odd in number. -/
def quoteRunsEven (s : List Nat) : Bool := quoteRunsEvenAux false s

/-! ## The output file and the `bufio.Writer` `Csv` -/

/-- The bytes of an ASCII string literal. -/
def ascii (s : String) : List Nat := s.toList.map Char.toNat

/-- The file `PreRunE` opens.  `room` is the number of bytes the device
still accepts (`none`: no limit); running out of room is how a write fails. -/
structure File where
  data : List Nat
  room : Option Nat
deriving DecidableEq

/-- Go's `(*os.File).Write`, and `WriteString`, which differs in the type of
its argument only: the file, the number of bytes written and whether an
error is returned. -/
def File.Write (f : File) (p : List Nat) : File × Nat × Bool :=
  match f.room with
  | none => ({ f with data := f.data ++ p }, p.length, false)
  | some k =>
    if p.length ≤ k then ({ data := f.data ++ p, room := some (k - p.length) }, p.length, false)
    else ({ data := f.data ++ p.take k, room := some 0 }, k, true)

/-- Go's `bufio.Writer`: `buf` is `b.buf[0:b.n]`, `size` is `len(b.buf)`. -/
structure Writer where
  wr : File
  buf : List Nat
  size : Nat
  err : Bool
deriving DecidableEq

/-- The constant `defaultBufSize` of `bufio`. -/
def defaultBufSize : Nat := 4096

/-- Go's `bufio.NewWriterSize`. -/
def NewWriterSize (f : File) (size : Nat) : Writer :=
  { wr := f, buf := [], size := if size = 0 then defaultBufSize else size, err := false }

/-- Go's `(*Writer).Available`. -/
def Writer.Available (b : Writer) : Nat := b.size - b.buf.length

/-- Go's `(*Writer).Flush`: the writer and whether an error is returned. -/
def Writer.Flush (b : Writer) : Writer × Bool :=
  if b.err then (b, true)
  else if b.buf.length = 0 then (b, false)
  else
    match b.wr.Write b.buf with
    | (f, n, e) =>
      if n < b.buf.length || e then
        ({ b with wr := f, buf := b.buf.drop n, err := true }, true)
      else ({ b with wr := f, buf := [] }, false)

/-- The loop of `WriteString`; it exits before the fuel runs out when the
buffer size is positive. -/
def writeStringAux : Nat → Writer → List Nat → Writer × Bool
  | 0, b, _ => (b, b.err)
  | fuel + 1, b, s =>
    if b.Available < s.length && !b.err then
      if b.buf.length = 0 then
        match b.wr.Write s with
        | (f, n, e) => writeStringAux fuel { b with wr := f, err := e } (s.drop n)
      else
        writeStringAux fuel
          ({ b with buf := b.buf ++ s.take (min s.length b.Available) }.Flush).1
          (s.drop (min s.length b.Available))
    else if b.err then (b, true)
    else ({ b with buf := b.buf ++ s }, false)

/-- Go's `(*Writer).WriteString`.  While `s` does not fit: with an empty
buffer the string is handed to the `WriteString` of the file (`*os.File` is
an `io.StringWriter`), otherwise the buffer is filled and flushed; what then
remains is copied into the buffer.  The loop runs at most twice.  (Versions
of the library without the hand-over fill and flush the empty buffer too;
the bytes accepted, in order, are the same.) -/
def Writer.WriteString (b : Writer) (s : List Nat) : Writer × Bool :=
  writeStringAux (s.length + 2) b s

/-- All the bytes the writer has accepted, in order: those that reached the
file and those still in the buffer. -/
def Writer.written (b : Writer) : List Nat := b.wr.data ++ b.buf

/-! ## `rootCmd.Run` and `rootCmd.PostRun` -/

/-- The flags the export reads. -/
structure Flags where
  Delimiter : List Nat
  Lf : Bool
  Headers : Bool
deriving DecidableEq

/-- The variable `Eol` as `PreRunE` sets it. -/
def Eol (fl : Flags) : List Nat := if fl.Lf then [0x0A] else [0x0D, 0x0A]

/-- The `reflect.Kind` of a column's `ScanType()`. -/
inductive Kind
  | bool | int64 | float64 | string | slice | struct | interface
deriving DecidableEq

/-- What `Run` reads of a `*sql.ColumnType`. -/
structure ColumnType where
  Name : List Nat
  DatabaseTypeName : List Nat
  ScanKind : Kind
deriving DecidableEq

/-- What the cursor holds for one row: the values `Scan` stores into the
`*[]byte` cells, already converted to bytes (`none`: NULL), or a row on
which `Scan` returns an error. -/
inductive Row
  | values (vs : List (Option (List Nat)))
  | scanError
deriving DecidableEq

/-- What `Con.QueryContext` and `rows.ColumnTypes` give. -/
inductive Query
  | queryError
  | columnTypesError
  | rows (types : List ColumnType) (rows : List Row)
deriving DecidableEq

/-- The state of a run: the writer `Csv`, the number of calls of
`rows.Next` and of `rows.Scan`, and the variable `counter`. -/
structure State where
  Csv : Writer
  nextCalls : Nat
  scanCalls : Nat
  counter : Nat
deriving DecidableEq

/-- The calls of `log.Fatal` in `Run`. -/
inductive Fatal
  | executingQuery
  | retrievingColumnTypes
  | writingDelimiter
  | writingColumnName
  | binaryType (name : List Nat)
  | writingEol
  | scan
  | writingString
deriving DecidableEq

/-- How `Run` ends: it returns, or `log.Fatal` exits the process in the
state reached. -/
inductive Result
  | done (st : State)
  | fatal (e : Fatal) (st : State)
deriving DecidableEq

/-- Sequencing: the next step runs unless `log.Fatal` has exited. -/
def Result.andThen : Result → (State → Result) → Result
  | .done st, f => f st
  | .fatal e st, _ => .fatal e st

/-- The state in which a run ended. -/
def Result.state : Result → State
  | .done st => st
  | .fatal _ st => st

/-- The statement `if _, err = Csv.WriteString(s); err != nil { log.Fatal(...) }`. -/
def write (e : Fatal) (s : List Nat) (st : State) : Result :=
  match st.Csv.WriteString s with
  | (w, true) => .fatal e { st with Csv := w }
  | (w, false) => .done { st with Csv := w }

/-- The call `fmt.Sprintf("\"%s\"", s)`. -/
def quoted (s : List Nat) : List Nat := [quote] ++ s ++ [quote]

/-- The call `fmt.Sprintf("%v", n)` for a non-negative integer. -/
def decimal (n : Nat) : List Nat := (Nat.toDigits 10 n).map Char.toNat

/-- The variable `name` of the column loop. -/
def columnName (i : Nat) (t : ColumnType) : List Nat :=
  if t.Name = [] then ascii "column_" ++ decimal (i + 1) else t.Name

/-- The database type name the column loop rejects. -/
def BINARY : List Nat := ascii "BINARY"

/-- The loop `for i, t := range types` of `Run`.  The entries `cells[i]` are
the buffers `Scan` fills; `isString[i]`, computed from the scan kind, is read
nowhere in `Run` and is left out. -/
def columnLoop (fl : Flags) : Nat → List ColumnType → State → Result
  | _, [], st => .done st
  | i, t :: ts, st =>
    (if fl.Headers then
      (if i ≠ 0 then write .writingDelimiter fl.Delimiter st else .done st).andThen
        (write .writingColumnName (quoted (columnName i t)))
     else .done st).andThen fun st1 =>
      if t.DatabaseTypeName = BINARY then .fatal (.binaryType (columnName i t)) st1
      else columnLoop fl (i + 1) ts st1

/-- The call `rows.Scan(cells...)` into `ncells` cells of type `*[]byte`: an error
when the row has another number of values; a NULL leaves a nil slice. -/
def Scan (ncells : Nat) : Row → Option (List (List Nat))
  | .scanError => none
  | .values vs => if vs.length ≠ ncells then none else some (vs.map (fun v => v.getD []))

/-- The loop `for i, cell := range cells` of `Run`. -/
def cellLoop (pr : Nat → Bool) (fl : Flags) : Nat → List (List Nat) → State → Result
  | _, [], st => .done st
  | i, cell :: cells, st =>
    ((if i ≠ 0 then write .writingDelimiter fl.Delimiter st else .done st).andThen
      (write .writingString (quoted (san pr cell)))).andThen (cellLoop pr fl (i + 1) cells)

/-- The loop `for rows.Next()` of `Run`, over the rows the cursor holds; the
last call of `rows.Next` reports the end.  The progress line printed to the
terminal is left out. -/
def rowLoop (pr : Nat → Bool) (fl : Flags) (ncells : Nat) : List Row → State → Result
  | [], st => .done { st with nextCalls := st.nextCalls + 1 }
  | row :: rows, st =>
    match Scan ncells row with
    | none => .fatal .scan { st with nextCalls := st.nextCalls + 1, scanCalls := st.scanCalls + 1 }
    | some cells =>
      ((cellLoop pr fl 0 cells
          { st with nextCalls := st.nextCalls + 1, scanCalls := st.scanCalls + 1 }).andThen
        (write .writingEol (Eol fl))).andThen fun st2 =>
          rowLoop pr fl ncells rows { st2 with counter := st2.counter + 1 }

/-- The function `rootCmd.Run`.  What it prints to standard output is left out. -/
def Run (pr : Nat → Bool) (fl : Flags) : Query → State → Result
  | .queryError, st => .fatal .executingQuery st
  | .columnTypesError, st => .fatal .retrievingColumnTypes st
  | .rows types rows, st =>
    ((columnLoop fl 0 types st).andThen fun st1 =>
      if fl.Headers then write .writingEol (Eol fl) st1 else .done st1).andThen fun st2 =>
        rowLoop pr fl types.length rows { st2 with counter := 0 }

/-- The function `rootCmd.PostRun`: the flush of `Csv`; its error is only
logged.  The call `Con.Close()` does not touch the output and is left out. -/
def PostRun (st : State) : State := { st with Csv := st.Csv.Flush.1 }

/-- The state `PreRunE` leaves: `Csv` is a writer of 10 MiB over the
truncated output file. -/
def initialState (room : Option Nat) : State :=
  { Csv := NewWriterSize { data := [], room := room } (10 * 1024 * 1024),
    nextCalls := 0, scanCalls := 0, counter := 0 }

/-- The function `Execute`, from the state `PreRunE` leaves: `rootCmd.Execute()`
runs `Run`, then `PostRun`.  After `log.Fatal` the process has exited and
`PostRun` does not run. -/
def Execute (pr : Nat → Bool) (fl : Flags) (room : Option Nat) (q : Query) : Result :=
  match Run pr fl q (initialState room) with
  | .fatal e st => .fatal e st
  | .done st => .done (PostRun st)

/-! ## Records as the loops of `Run` write them -/

/-- One record: the fields, each wrapped in double quotes, joined by the
delimiter `d`, followed by the end of line `e`. -/
def specRecord (d e : List Nat) (fields : List (List Nat)) : List Nat :=
  List.intercalate d (fields.map quoted) ++ e

/-- The header fields: the column names, an empty name at ordinal `i`
replaced by `column_<i+1>`. -/
def headerFields (types : List ColumnType) : List (List Nat) :=
  types.enum.map fun p => if p.2.Name = [] then ascii "column_" ++ decimal (p.1 + 1) else p.2.Name

/-- The data fields of a row: `san` of each cell, a NULL cell giving an
empty field. -/
def dataFields (pr : Nat → Bool) (vs : List (Option (List Nat))) : List (List Nat) :=
  vs.map fun v =>
    match v with
    | none => []
    | some cell => san pr cell

/-- The whole output: the header record if asked for, then one record per
row in cursor order. -/
def specOutput (pr : Nat → Bool) (fl : Flags) (types : List ColumnType)
    (rows : List (List (Option (List Nat)))) : List Nat :=
  (if fl.Headers then specRecord fl.Delimiter (Eol fl) (headerFields types) else []) ++
    (rows.map fun vs => specRecord fl.Delimiter (Eol fl) (dataFields pr vs)).flatten

/-- The scan of `countDelims`; the fuel is the number of bytes. -/
def countDelimsAux (d : List Nat) : Nat → Bool → List Nat → Nat
  | 0, _, _ => 0
  | _ + 1, _, [] => 0
  | fuel + 1, inQuotes, c :: rest =>
    if inQuotes then countDelimsAux d fuel (c != quote) rest
    else if d ≠ [] ∧ d.isPrefixOf (c :: rest) then
      1 + countDelimsAux d fuel false ((c :: rest).drop d.length)
    else countDelimsAux d fuel (c == quote) rest

/-- The number of occurrences of the delimiter `d` in `s` outside quoted
content: a double quote opens quoted content and the next one closes it (a
doubled quote closes and opens again); outside, the occurrences of `d` are
counted from left to right without overlap.  An empty `d` occurs nowhere. -/
def countDelims (d s : List Nat) : Nat := countDelimsAux d s.length false s

/-- Reads a quoted field from behind its opening quote to its closing quote,
the first quote not followed by another one.  Gives the content, doubled
quotes still doubled, and what follows the closing quote.  `pending` tells
that the byte before was a quote that may be the closing one. -/
def readQuoted : Bool → List Nat → Option (List Nat × List Nat)
  | pending, [] => if pending then some ([], []) else none
  | pending, c :: rest =>
    if pending then
      if c = quote then (readQuoted false rest).map fun p => (quote :: quote :: p.1, p.2)
      else some ([], c :: rest)
    else if c = quote then readQuoted true rest
    else (readQuoted false rest).map fun p => (c :: p.1, p.2)

/-- The loop of `splitRecord`, one field a turn; the fuel is the number of
bytes. -/
def splitRecordAux (d e : List Nat) : Nat → List Nat → Option (List (List Nat))
  | 0, _ => none
  | _ + 1, [] => none
  | fuel + 1, c :: rest =>
    if c ≠ quote then none
    else
      match readQuoted false rest with
      | none => none
      | some (f, r) =>
        if r = e then some [f]
        else if d.isPrefixOf r then (splitRecordAux d e fuel (r.drop d.length)).map fun fs => f :: fs
        else none

/-- Splits a record into the contents of its quoted fields: after the
closing quote of a field comes the end of line `e`, which ends the record, or
the delimiter `d` and the next field. -/
def splitRecord (d e s : List Nat) : Option (List (List Nat)) := splitRecordAux d e s.length s

/-- Un-doubling of quotes: every pair of double quotes becomes one. -/
def unDouble (s : List Nat) : List Nat := ReplaceAll s [quote, quote] [quote]

/-! ## Auxiliary notions of the proofs -/

/-- A writer that has not failed, over a file that accepts every write. -/
def Writer.good (b : Writer) : Prop := b.err = false ∧ b.wr.room = none ∧ 1 ≤ b.size

/-- What a field loop that starts at index `i` writes: the delimiter before
every field but the one of index 0. -/
def joinFrom (d : List Nat) : Nat → List (List Nat) → List Nat
  | _, [] => []
  | i, f :: fs => (if i ≠ 0 then d else []) ++ quoted f ++ joinFrom d (i + 1) fs

/-- The counters of a state: calls of `rows.Next`, calls of `rows.Scan` and
the row counter. -/
def State.counters (st : State) : Nat × Nat × Nat := (st.nextCalls, st.scanCalls, st.counter)

/-- A fatal error of one of the writes of the column loop. -/
def Fatal.isHeaderWrite : Fatal → Bool
  | .writingDelimiter => true
  | .writingColumnName => true
  | _ => false

/-- The fatal error of the BINARY check of the column loop. -/
def Fatal.isBinaryType : Fatal → Bool
  | .binaryType _ => true
  | _ => false

/-! ## The output, in the words of the specification

Nothing here refers to the definitions that embed the code, `san` apart,
which the specification names. -/

/-- The loop of `expectedDecimal`; the fuel bounds the number of digits. -/
def expectedDecimalAux : Nat → Nat → List Nat
  | 0, _ => []
  | fuel + 1, n =>
    if n < 10 then [0x30 + n] else expectedDecimalAux fuel (n / 10) ++ [0x30 + n % 10]

/-- The decimal numeral of `n` in ASCII digits, most significant first. -/
def expectedDecimal (n : Nat) : List Nat := expectedDecimalAux (n + 1) n

/-- The number a string of ASCII digits stands for. -/
def decimalValue (s : List Nat) : Nat := s.foldl (fun acc c => acc * 10 + (c - 0x30)) 0

/-- A field wrapped in double quotes. -/
def wrapQuotes (f : List Nat) : List Nat := [0x22] ++ f ++ [0x22]

/-- One record: the fields, each wrapped in double quotes, joined by the
delimiter `d` with no delimiter before the first, followed by the end of
line `e`. -/
def expectedRecord (d e : List Nat) (fields : List (List Nat)) : List Nat :=
  List.intercalate d (fields.map wrapQuotes) ++ e

/-- The header fields: the column names, an empty name at the 0-based
ordinal `i` replaced by `column_<i+1>`. -/
def expectedHeaderFields (names : List (List Nat)) : List (List Nat) :=
  names.enum.map fun p =>
    if p.2 = [] then [0x63, 0x6F, 0x6C, 0x75, 0x6D, 0x6E, 0x5F] ++ expectedDecimal (p.1 + 1)
    else p.2

/-- The data fields of a row: `san` of each cell, a NULL cell giving an
empty field. -/
def expectedDataFields (pr : Nat → Bool) (vs : List (Option (List Nat))) : List (List Nat) :=
  vs.map fun v =>
    match v with
    | none => []
    | some cell => san pr cell

/-- The whole output for the delimiter `d`, the end of line `e` and the
header flag `h`: the header record if `h`, then one record per row in cursor
order. -/
def expectedOutput (pr : Nat → Bool) (d e : List Nat) (h : Bool) (names : List (List Nat))
    (rows : List (List (Option (List Nat)))) : List Nat :=
  (if h then expectedRecord d e (expectedHeaderFields names) else []) ++
    (rows.map fun vs => expectedRecord d e (expectedDataFields pr vs)).flatten

/-! ## Concrete inputs -/

/-- Ten columns of type INT, those of ordinal 1 and 9 without name. -/
def wideTypes : List ColumnType :=
  [⟨[0x69, 0x64], ascii "INT", .int64⟩, ⟨[], ascii "INT", .int64⟩] ++
    List.replicate 7 ⟨[0x63], ascii "INT", .int64⟩ ++ [⟨[], ascii "INT", .int64⟩]

/-- One row of ten cells, the second one NULL. -/
def wideRows : List (List (Option (List Nat))) :=
  [[some [0x31], none] ++ List.replicate 8 (some [0x78])]

/-- Header on, delimiter `;`, `--lf`. -/
def lfFlags : Flags := ⟨[0x3B], true, true⟩

/-- The output for `wideTypes`, `wideRows` and `lfFlags`:
`"id";"column_2";"c";"c";"c";"c";"c";"c";"c";"column_10"` and
`"1";"";"x";"x";"x";"x";"x";"x";"x";"x"`, each followed by a line feed. -/
def wideOutput : List Nat :=
  [0x22, 0x69, 0x64, 0x22, 0x3B,
   0x22, 0x63, 0x6F, 0x6C, 0x75, 0x6D, 0x6E, 0x5F, 0x32, 0x22, 0x3B,
   0x22, 0x63, 0x22, 0x3B, 0x22, 0x63, 0x22, 0x3B, 0x22, 0x63, 0x22, 0x3B, 0x22, 0x63, 0x22, 0x3B,
   0x22, 0x63, 0x22, 0x3B, 0x22, 0x63, 0x22, 0x3B, 0x22, 0x63, 0x22, 0x3B,
   0x22, 0x63, 0x6F, 0x6C, 0x75, 0x6D, 0x6E, 0x5F, 0x31, 0x30, 0x22, 0x0A,
   0x22, 0x31, 0x22, 0x3B, 0x22, 0x22, 0x3B,
   0x22, 0x78, 0x22, 0x3B, 0x22, 0x78, 0x22, 0x3B, 0x22, 0x78, 0x22, 0x3B, 0x22, 0x78, 0x22, 0x3B,
   0x22, 0x78, 0x22, 0x3B, 0x22, 0x78, 0x22, 0x3B, 0x22, 0x78, 0x22, 0x3B, 0x22, 0x78, 0x22, 0x0A]

/-- Eleven columns of type INT, then a BINARY column without name whose scan
kind is `string`, then a BINARY column named `z`. -/
def binaryExampleTypes : List ColumnType :=
  List.replicate 11 ⟨[0x63], ascii "INT", .int64⟩ ++
    [⟨[], ascii "BINARY", .string⟩, ⟨[0x7A], ascii "BINARY", .slice⟩]


/-- Tables `L, M, N, P, S` without any rune above Latin-1: a stand-in for the
tables of the Go library on inputs that stay within Latin-1. -/
def latin1Tables : Nat → Bool := fun _ => false

/-- Columns `(id, name, note)`. -/
def exampleTypes : List ColumnType :=
  [⟨ascii "id", ascii "INT", .int64⟩, ⟨ascii "name", ascii "NVARCHAR", .string⟩,
    ⟨ascii "note", ascii "NVARCHAR", .string⟩]

/-- Rows `(1, Ann, Hi<TAB>there)` and `(2, B"ob, NULL)`. -/
def exampleRows : List (List (Option (List Nat))) :=
  [[some (ascii "1"), some (ascii "Ann"), some [0x48, 0x69, 0x09, 0x74, 0x68, 0x65, 0x72, 0x65]],
    [some (ascii "2"), some [0x42, 0x22, 0x6F, 0x62], none]]

/-- Header on, delimiter `,`, CRLF. -/
def exampleFlags : Flags := ⟨ascii ",", false, true⟩

/-- The output the specification gives for the example:
`"id","name","note"` `"1","Ann","Hi there"` `"2","B""ob",""`, each followed
by CRLF. -/
def exampleOutput : List Nat :=
  [0x22, 0x69, 0x64, 0x22, 0x2C, 0x22, 0x6E, 0x61, 0x6D, 0x65, 0x22, 0x2C, 0x22, 0x6E, 0x6F, 0x74,
    0x65, 0x22, 0x0D, 0x0A,
   0x22, 0x31, 0x22, 0x2C, 0x22, 0x41, 0x6E, 0x6E, 0x22, 0x2C, 0x22, 0x48, 0x69, 0x20, 0x74, 0x68,
    0x65, 0x72, 0x65, 0x22, 0x0D, 0x0A,
   0x22, 0x32, 0x22, 0x2C, 0x22, 0x42, 0x22, 0x22, 0x6F, 0x62, 0x22, 0x2C, 0x22, 0x22, 0x0D, 0x0A]

/-! ## Records -/

/-- A delimiter that can be told from the quotes and from the end of line:
not empty, and without double quote, carriage return or line feed. -/
def delimiterOk (d : List Nat) : Prop := d ≠ [] ∧ quote ∉ d ∧ 0x0D ∉ d ∧ 0x0A ∉ d

instance (d : List Nat) : Decidable (delimiterOk d) := by
  unfold delimiterOk; infer_instance

/-- The header record, if the header is asked for. -/
def headerRecords (fl : Flags) (types : List ColumnType) : List (List Nat) :=
  if fl.Headers then [specRecord fl.Delimiter (Eol fl) (headerFields types)] else []

/-- The data records, one per row. -/
def dataRecords (pr : Nat → Bool) (fl : Flags) (rows : List (List (Option (List Nat)))) :
    List (List Nat) :=
  rows.map fun vs => specRecord fl.Delimiter (Eol fl) (dataFields pr vs)

/-! ## Decoding and encoding -/

theorem leadInfo_two (b : Nat) (h1 : 0xC2 ≤ b) (h2 : b ≤ 0xDF) :
    leadInfo b = some (2, 0x80, 0xBF) := by
  unfold leadInfo; split_ifs <;> first | rfl | omega

theorem leadInfo_three (b0 b1 : Nat) (h1 : 0xE0 ≤ b0) (h2 : b0 ≤ 0xEF)
    (h3 : 0x80 ≤ b1) (h4 : b1 ≤ 0xBF) (h5 : b0 = 0xE0 → 0xA0 ≤ b1) (h6 : b0 = 0xED → b1 ≤ 0x9F) :
    ∃ lo hi, leadInfo b0 = some (3, lo, hi) ∧ ¬ b1 < lo ∧ ¬ hi < b1 := by
  unfold leadInfo
  split_ifs <;> first | omega | (refine ⟨_, _, rfl, ?_, ?_⟩ <;> omega)

theorem leadInfo_four (b0 b1 : Nat) (h1 : 0xF0 ≤ b0) (h2 : b0 ≤ 0xF4)
    (h3 : 0x80 ≤ b1) (h4 : b1 ≤ 0xBF) (h5 : b0 = 0xF0 → 0x90 ≤ b1) (h6 : b0 = 0xF4 → b1 ≤ 0x8F) :
    ∃ lo hi, leadInfo b0 = some (4, lo, hi) ∧ ¬ b1 < lo ∧ ¬ hi < b1 := by
  unfold leadInfo
  split_ifs <;> first | omega | (refine ⟨_, _, rfl, ?_, ?_⟩ <;> omega)

theorem decode_two (b0 b1 : Nat) (rest : List Nat) (h1 : 0xC2 ≤ b0) (h2 : b0 ≤ 0xDF)
    (h3 : 0x80 ≤ b1) (h4 : b1 ≤ 0xBF) :
    DecodeRune (b0 :: b1 :: rest) = (b0 % 32 * 64 + b1 % 64, 2) := by
  have hn : ¬ b0 < 128 := by omega
  have q1 : ¬ b1 < 128 := by omega
  have q2 : ¬ 191 < b1 := by omega
  simp [DecodeRune, RuneSelf, leadInfo_two b0 h1 h2, hn, q1, q2]

theorem decode_three (b0 b1 b2 : Nat) (rest : List Nat) (h1 : 0xE0 ≤ b0) (h2 : b0 ≤ 0xEF)
    (h3 : 0x80 ≤ b1) (h4 : b1 ≤ 0xBF) (h5 : b0 = 0xE0 → 0xA0 ≤ b1) (h6 : b0 = 0xED → b1 ≤ 0x9F)
    (h7 : 0x80 ≤ b2) (h8 : b2 ≤ 0xBF) :
    DecodeRune (b0 :: b1 :: b2 :: rest) = (b0 % 16 * 4096 + b1 % 64 * 64 + b2 % 64, 3) := by
  have hn : ¬ b0 < 128 := by omega
  have q7 : ¬ b2 < 128 := by omega
  have q8 : ¬ 191 < b2 := by omega
  obtain ⟨lo, hi, e1, e2, e3⟩ := leadInfo_three b0 b1 h1 h2 h3 h4 h5 h6
  simp [DecodeRune, RuneSelf, e1, hn, e2, e3, isCont, q7, q8]

theorem decode_four (b0 b1 b2 b3 : Nat) (rest : List Nat) (h1 : 0xF0 ≤ b0) (h2 : b0 ≤ 0xF4)
    (h3 : 0x80 ≤ b1) (h4 : b1 ≤ 0xBF) (h5 : b0 = 0xF0 → 0x90 ≤ b1) (h6 : b0 = 0xF4 → b1 ≤ 0x8F)
    (h7 : 0x80 ≤ b2) (h8 : b2 ≤ 0xBF) (h9 : 0x80 ≤ b3) (h10 : b3 ≤ 0xBF) :
    DecodeRune (b0 :: b1 :: b2 :: b3 :: rest) =
      (b0 % 8 * 262144 + b1 % 64 * 4096 + b2 % 64 * 64 + b3 % 64, 4) := by
  have hn : ¬ b0 < 128 := by omega
  have q7 : ¬ b2 < 128 := by omega
  have q8 : ¬ 191 < b2 := by omega
  have q9 : ¬ b3 < 128 := by omega
  have q10 : ¬ 191 < b3 := by omega
  obtain ⟨lo, hi, e1, e2, e3⟩ := leadInfo_four b0 b1 h1 h2 h3 h4 h5 h6
  simp [DecodeRune, RuneSelf, e1, hn, e2, e3, isCont, q7, q8, q9, q10]

theorem encodeRune_length_pos (r : Nat) : 1 ≤ (EncodeRune r).length := by
  unfold EncodeRune; split_ifs <;> simp

/-- Decoding what `EncodeRune` wrote for a scalar value gives the value back
and consumes exactly its encoding. -/
theorem decode_encode (r : Nat) (rest : List Nat) (h : validScalar r) :
    DecodeRune (EncodeRune r ++ rest) = (r, (EncodeRune r).length) := by
  obtain ⟨h1, h2⟩ := h
  unfold EncodeRune
  by_cases c1 : r ≤ 0x7F
  · simp [c1, DecodeRune, RuneSelf]; omega
  by_cases c2 : r ≤ 0x7FF
  · simp only [c1, c2, if_true, if_false, List.cons_append, List.nil_append, List.length_cons,
      List.length_nil]
    rw [decode_two _ _ _ (by omega) (by omega) (by omega) (by omega)]
    simp; omega
  have c3 : ¬ (MaxRune < r ∨ (0xD800 ≤ r ∧ r ≤ 0xDFFF)) := by
    unfold MaxRune; omega
  have c3b : (decide (MaxRune < r) || (decide (0xD800 ≤ r) && decide (r ≤ 0xDFFF))) = false := by
    simpa using c3
  by_cases c4 : r ≤ 0xFFFF
  · simp only [c1, c2, c3b, c4, if_true, if_false, Bool.false_eq_true, List.cons_append,
      List.nil_append, List.length_cons, List.length_nil]
    rw [decode_three _ _ _ _ (by omega) (by omega) (by omega) (by omega) (by omega) (by omega)
      (by omega) (by omega)]
    simp; omega
  · simp only [c1, c2, c3b, c4, if_true, if_false, Bool.false_eq_true, List.cons_append,
      List.nil_append, List.length_cons, List.length_nil]
    rw [decode_four _ _ _ _ _ (by omega) (by omega) (by omega) (by omega) (by omega) (by omega)
      (by omega) (by omega) (by omega) (by omega)]
    simp; omega

theorem leadInfo_some (c sz lo hi : Nat) (h : leadInfo c = some (sz, lo, hi)) :
    (sz = 2 ∧ 0xC2 ≤ c ∧ c ≤ 0xDF ∧ lo = 0x80 ∧ hi = 0xBF) ∨
    (sz = 3 ∧ 0xE0 ≤ c ∧ c ≤ 0xEF ∧ 0x80 ≤ lo ∧ hi ≤ 0xBF ∧ (c = 0xE0 → lo = 0xA0) ∧
      (c = 0xED → hi = 0x9F)) ∨
    (sz = 4 ∧ 0xF0 ≤ c ∧ c ≤ 0xF4 ∧ 0x80 ≤ lo ∧ hi ≤ 0xBF ∧ (c = 0xF0 → lo = 0x90) ∧
      (c = 0xF4 → hi = 0x8F)) := by
  unfold leadInfo at h
  split_ifs at h <;> simp at h <;> omega

theorem encode_two (c b1 : Nat) (h1 : 0xC2 ≤ c) (h2 : c ≤ 0xDF) (h3 : 0x80 ≤ b1)
    (h4 : b1 ≤ 0xBF) : EncodeRune (c % 32 * 64 + b1 % 64) = [c, b1] ∧
      validScalar (c % 32 * 64 + b1 % 64) := by
  have c1 : ¬ c % 32 * 64 + b1 % 64 ≤ 0x7F := by omega
  have c2 : c % 32 * 64 + b1 % 64 ≤ 0x7FF := by omega
  refine ⟨?_, by unfold validScalar; omega⟩
  unfold EncodeRune
  simp only [c1, c2, if_true, if_false]
  congr 1
  · omega
  · congr 1; omega

theorem encode_three (c b1 b2 : Nat) (h1 : 0xE0 ≤ c) (h2 : c ≤ 0xEF) (h3 : 0x80 ≤ b1)
    (h4 : b1 ≤ 0xBF) (h5 : c = 0xE0 → 0xA0 ≤ b1) (h6 : c = 0xED → b1 ≤ 0x9F) (h7 : 0x80 ≤ b2)
    (h8 : b2 ≤ 0xBF) :
    EncodeRune (c % 16 * 4096 + b1 % 64 * 64 + b2 % 64) = [c, b1, b2] ∧
      validScalar (c % 16 * 4096 + b1 % 64 * 64 + b2 % 64) := by
  generalize hr : c % 16 * 4096 + b1 % 64 * 64 + b2 % 64 = r
  have c1 : ¬ r ≤ 0x7F := by omega
  have c2 : ¬ r ≤ 0x7FF := by omega
  have c3 : ¬ (MaxRune < r ∨ (0xD800 ≤ r ∧ r ≤ 0xDFFF)) := by unfold MaxRune; omega
  have c3b : (decide (MaxRune < r) || (decide (0xD800 ≤ r) && decide (r ≤ 0xDFFF))) = false := by
    simpa using c3
  have c4 : r ≤ 0xFFFF := by omega
  refine ⟨?_, by unfold validScalar; omega⟩
  unfold EncodeRune
  simp only [c1, c2, c3b, c4, if_true, if_false, Bool.false_eq_true]
  congr 1
  · omega
  · congr 1
    · omega
    · congr 1; omega

theorem encode_four (c b1 b2 b3 : Nat) (h1 : 0xF0 ≤ c) (h2 : c ≤ 0xF4) (h3 : 0x80 ≤ b1)
    (h4 : b1 ≤ 0xBF) (h5 : c = 0xF0 → 0x90 ≤ b1) (h6 : c = 0xF4 → b1 ≤ 0x8F) (h7 : 0x80 ≤ b2)
    (h8 : b2 ≤ 0xBF) (h9 : 0x80 ≤ b3) (h10 : b3 ≤ 0xBF) :
    EncodeRune (c % 8 * 262144 + b1 % 64 * 4096 + b2 % 64 * 64 + b3 % 64) = [c, b1, b2, b3] ∧
      validScalar (c % 8 * 262144 + b1 % 64 * 4096 + b2 % 64 * 64 + b3 % 64) := by
  generalize hr : c % 8 * 262144 + b1 % 64 * 4096 + b2 % 64 * 64 + b3 % 64 = r
  have c1 : ¬ r ≤ 0x7F := by omega
  have c2 : ¬ r ≤ 0x7FF := by omega
  have c3 : ¬ (MaxRune < r ∨ (0xD800 ≤ r ∧ r ≤ 0xDFFF)) := by unfold MaxRune; omega
  have c3b : (decide (MaxRune < r) || (decide (0xD800 ≤ r) && decide (r ≤ 0xDFFF))) = false := by
    simpa using c3
  have c4 : ¬ r ≤ 0xFFFF := by omega
  refine ⟨?_, by unfold validScalar; omega⟩
  unfold EncodeRune
  simp only [c1, c2, c3b, c4, if_true, if_false, Bool.false_eq_true]
  congr 1
  · omega
  · congr 1
    · omega
    · congr 1
      · omega
      · congr 1; omega

/-- A successful multi-byte decode: the bytes consumed are the encoding of
the scalar value returned. -/
theorem decode_multi (c : Nat) (rest : List Nat) (hc : ¬ c < RuneSelf)
    (hw : (DecodeRune (c :: rest)).2 ≠ 1) :
    validScalar (DecodeRune (c :: rest)).1 ∧
      (c :: rest).take (DecodeRune (c :: rest)).2 = EncodeRune (DecodeRune (c :: rest)).1 ∧
      (DecodeRune (c :: rest)).2 ≤ (c :: rest).length := by
  unfold DecodeRune at hw ⊢
  simp only [hc, if_false] at hw ⊢
  cases hl : leadInfo c with
  | none => simp [hl] at hw
  | some t =>
    obtain ⟨sz, lo, hi⟩ := t
    simp only [hl] at hw ⊢
    rcases leadInfo_some c sz lo hi hl with ⟨rfl, h1, h2, rfl, rfl⟩ |
      ⟨rfl, h1, h2, h3, h4, h5, h6⟩ | ⟨rfl, h1, h2, h3, h4, h5, h6⟩
    · rcases rest with _ | ⟨b1, rest1⟩
      · simp at hw
      · by_cases g : b1 < 0x80 ∨ 0xBF < b1
        · simp [g] at hw
        · obtain ⟨e1, e2⟩ := encode_two c b1 (by omega) (by omega) (by omega) (by omega)
          have gl : ¬ (rest1.length + 1 + 1 < 2) := by omega
          simp [g, e1, e2, gl]
    · rcases rest with _ | ⟨b1, _ | ⟨b2, rest2⟩⟩
      · simp at hw
      · simp at hw
      · by_cases g : b1 < lo ∨ hi < b1
        · simp [g] at hw
        · by_cases g2 : isCont b2 = true
          · have g3 := g2
            simp only [isCont, Bool.and_eq_true, decide_eq_true_eq] at g3
            obtain ⟨e1, e2⟩ := encode_three c b1 b2 (by omega) (by omega) (by omega) (by omega)
              (by omega) (by omega) (by omega) (by omega)
            have gl : ¬ (rest2.length + 1 + 1 + 1 < 3) := by omega
            simp [g, g2, e1, e2, gl]
          · simp [g, g2] at hw
    · rcases rest with _ | ⟨b1, _ | ⟨b2, _ | ⟨b3, rest3⟩⟩⟩
      · simp at hw
      · simp at hw
      · simp at hw
      · by_cases g : b1 < lo ∨ hi < b1
        · simp [g] at hw
        · by_cases g2 : isCont b2 = true
          · by_cases g4 : isCont b3 = true
            · have g3 := g2
              have g5 := g4
              simp only [isCont, Bool.and_eq_true, decide_eq_true_eq] at g3 g5
              obtain ⟨e1, e2⟩ := encode_four c b1 b2 b3 (by omega) (by omega) (by omega)
                (by omega) (by omega) (by omega) (by omega) (by omega) (by omega) (by omega)
              have gl : ¬ (rest3.length + 1 + 1 + 1 + 1 < 4) := by omega
              simp [g, g2, g4, e1, e2, gl]
            · simp [g, g2, g4] at hw
          · simp [g, g2] at hw


/-! ## Encoded sequences -/

theorem encodeAll_append (xs ys : List Nat) :
    encodeAll (xs ++ ys) = encodeAll xs ++ encodeAll ys := by
  induction xs with
  | nil => rfl
  | cons x xs ih => simp [encodeAll, ih]

theorem encodeRune_ascii (r : Nat) (h : r ≤ 0x7F) : EncodeRune r = [r] := by
  simp [EncodeRune, h]

/-- The shape of an encoding: one ASCII byte, or a lead byte from `0xC0` on
followed by continuation bytes. -/
theorem encodeRune_shape (r : Nat) :
    (r ≤ 0x7F ∧ EncodeRune r = [r]) ∨
    (0x7F < r ∧ ∃ c tl, EncodeRune r = c :: tl ∧ 0xC0 ≤ c ∧ tl ≠ [] ∧
      ∀ b ∈ tl, 0x80 ≤ b ∧ b ≤ 0xBF) := by
  by_cases c1 : r ≤ 0x7F
  · exact Or.inl ⟨c1, encodeRune_ascii r c1⟩
  · refine Or.inr ⟨by omega, ?_⟩
    unfold EncodeRune
    simp only [c1, if_false]
    split_ifs
    all_goals refine ⟨_, _, rfl, ?_, by simp, ?_⟩
    all_goals first | omega | (intro b hb; simp at hb; omega)

theorem enc_cons (r : Nat) (rest : List Nat) (h : validScalar r) :
    ∃ c t, EncodeRune r ++ rest = c :: t ∧
      ((c < RuneSelf ∧ c = r ∧ t = rest) ∨
       (¬ c < RuneSelf ∧ (DecodeRune (c :: t)).2 ≠ 1 ∧ (DecodeRune (c :: t)).1 = r ∧
         (c :: t).take (DecodeRune (c :: t)).2 = EncodeRune r ∧
         (c :: t).drop (DecodeRune (c :: t)).2 = rest)) := by
  have hd := decode_encode r rest h
  rcases encodeRune_shape r with ⟨h1, e⟩ | ⟨h1, c, tl, e, hc, htl, _⟩
  · refine ⟨r, rest, by simp [e], Or.inl ⟨by unfold RuneSelf; omega, rfl, rfl⟩⟩
  · refine ⟨c, tl ++ rest, by simp [e], Or.inr ?_⟩
    have e2 : c :: (tl ++ rest) = EncodeRune r ++ rest := by simp [e]
    rw [e2, hd]
    refine ⟨by unfold RuneSelf; omega, ?_, rfl, by simp, by simp⟩
    rw [e]
    cases tl with
    | nil => exact absurd rfl htl
    | cons a as => simp

theorem toValidAux_enc (repl : List Nat) (r : Nat) (rest : List Nat) (k : Nat) (inv : Bool)
    (h : validScalar r) :
    toValidAux repl (k + 1) inv (EncodeRune r ++ rest) =
      EncodeRune r ++ toValidAux repl k false rest := by
  obtain ⟨c, t, e, h1 | h2⟩ := enc_cons r rest h
  · obtain ⟨a, rfl, rfl⟩ := h1
    have : c ≤ 0x7F := by unfold RuneSelf at a; omega
    rw [e, encodeRune_ascii c this]
    simp [toValidAux, a]
  · obtain ⟨a, b, _, d, f⟩ := h2
    rw [e]
    simp only [toValidAux, a, b, if_false]
    rw [d, f]

theorem mapAux_enc (f : Nat → Nat) (r : Nat) (rest : List Nat) (k : Nat) (h : validScalar r) :
    mapAux f (k + 1) (EncodeRune r ++ rest) = EncodeRune (f r) ++ mapAux f k rest := by
  obtain ⟨c, t, e, h1 | h2⟩ := enc_cons r rest h
  · obtain ⟨a, rfl, rfl⟩ := h1
    rw [e]
    simp [mapAux, a]
  · obtain ⟨a, _, b, _, d⟩ := h2
    rw [e]
    simp only [mapAux, a, if_false]
    rw [b, d]

theorem runesAux_enc (r : Nat) (rest : List Nat) (k : Nat) (h : validScalar r) :
    runesAux (k + 1) (EncodeRune r ++ rest) = r :: runesAux k rest := by
  obtain ⟨c, t, e, h1 | h2⟩ := enc_cons r rest h
  · obtain ⟨a, rfl, rfl⟩ := h1
    rw [e]
    simp [runesAux, DecodeRune, a]
  · obtain ⟨a, _, b, _, d⟩ := h2
    rw [e]
    simp only [runesAux]
    rw [b, d]

theorem validAux_enc (r : Nat) (rest : List Nat) (k : Nat) (h : validScalar r) :
    validAux (k + 1) (EncodeRune r ++ rest) = validAux k rest := by
  obtain ⟨c, t, e, h1 | h2⟩ := enc_cons r rest h
  · obtain ⟨a, rfl, rfl⟩ := h1
    rw [e]
    simp [validAux, a]
  · obtain ⟨a, b, _, _, d⟩ := h2
    rw [e]
    simp only [validAux, a, b, if_false]
    rw [d]

theorem encodeAll_length_cons (r : Nat) (rs : List Nat) (fuel : Nat)
    (h : (encodeAll (r :: rs)).length ≤ fuel) :
    ∃ k, fuel = k + 1 ∧ (encodeAll rs).length ≤ k := by
  have := encodeRune_length_pos r
  simp only [encodeAll, List.length_append] at h
  exact ⟨fuel - 1, by omega, by omega⟩

theorem toValidAux_encodeAll (repl : List Nat) (rs : List Nat) (hs : ∀ r ∈ rs, validScalar r) :
    ∀ (fuel : Nat) (inv : Bool), (encodeAll rs).length ≤ fuel →
      toValidAux repl fuel inv (encodeAll rs) = encodeAll rs := by
  induction rs with
  | nil => intro fuel inv _; cases fuel <;> simp [encodeAll, toValidAux]
  | cons r rs ih =>
    intro fuel inv hf
    obtain ⟨k, rfl, hk⟩ := encodeAll_length_cons r rs fuel hf
    simp only [encodeAll]
    rw [toValidAux_enc repl r _ k inv (hs r (by simp)),
      ih (fun x hx => hs x (by simp [hx])) k false hk]

theorem mapAux_encodeAll (f : Nat → Nat) (rs : List Nat) (hs : ∀ r ∈ rs, validScalar r) :
    ∀ fuel : Nat, (encodeAll rs).length ≤ fuel →
      mapAux f fuel (encodeAll rs) = encodeAll (rs.map f) := by
  induction rs with
  | nil => intro fuel _; cases fuel <;> simp [encodeAll, mapAux]
  | cons r rs ih =>
    intro fuel hf
    obtain ⟨k, rfl, hk⟩ := encodeAll_length_cons r rs fuel hf
    simp only [encodeAll, List.map_cons]
    rw [mapAux_enc f r _ k (hs r (by simp)), ih (fun x hx => hs x (by simp [hx])) k hk]

theorem runesAux_encodeAll (rs : List Nat) (hs : ∀ r ∈ rs, validScalar r) :
    ∀ fuel : Nat, (encodeAll rs).length ≤ fuel → runesAux fuel (encodeAll rs) = rs := by
  induction rs with
  | nil => intro fuel _; cases fuel <;> simp [encodeAll, runesAux]
  | cons r rs ih =>
    intro fuel hf
    obtain ⟨k, rfl, hk⟩ := encodeAll_length_cons r rs fuel hf
    simp only [encodeAll]
    rw [runesAux_enc r _ k (hs r (by simp)), ih (fun x hx => hs x (by simp [hx])) k hk]

theorem validAux_encodeAll (rs : List Nat) (hs : ∀ r ∈ rs, validScalar r) :
    ∀ fuel : Nat, (encodeAll rs).length ≤ fuel → validAux fuel (encodeAll rs) = true := by
  induction rs with
  | nil => intro fuel _; cases fuel <;> simp [encodeAll, validAux]
  | cons r rs ih =>
    intro fuel hf
    obtain ⟨k, rfl, hk⟩ := encodeAll_length_cons r rs fuel hf
    simp only [encodeAll]
    rw [validAux_enc r _ k (hs r (by simp)), ih (fun x hx => hs x (by simp [hx])) k hk]

/-- The function `Map` acts rune by rune on a well-formed sequence. -/
theorem Map_encodeAll (f : Nat → Nat) (rs : List Nat) (hs : ∀ r ∈ rs, validScalar r) :
    Map f (encodeAll rs) = encodeAll (rs.map f) :=
  mapAux_encodeAll f rs hs _ (le_refl _)

/-- The function `ToValidUTF8` leaves a well-formed sequence as it is. -/
theorem ToValidUTF8_encodeAll (repl : List Nat) (rs : List Nat) (hs : ∀ r ∈ rs, validScalar r) :
    ToValidUTF8 (encodeAll rs) repl = encodeAll rs :=
  toValidAux_encodeAll repl rs hs _ false (le_refl _)

theorem runes_encodeAll (rs : List Nat) (hs : ∀ r ∈ rs, validScalar r) :
    runes (encodeAll rs) = rs :=
  runesAux_encodeAll rs hs _ (le_refl _)

theorem Valid_encodeAll (rs : List Nat) (hs : ∀ r ∈ rs, validScalar r) :
    Valid (encodeAll rs) = true :=
  validAux_encodeAll rs hs _ (le_refl _)

/-! ## `ToValidUTF8` and `Valid` on arbitrary input -/

theorem decode_width (c : Nat) (rest : List Nat) (hc : ¬ c < RuneSelf)
    (hw : (DecodeRune (c :: rest)).2 ≠ 1) :
    2 ≤ (DecodeRune (c :: rest)).2 := by
  obtain ⟨_, h2, _⟩ := decode_multi c rest hc hw
  have h3 := congrArg List.length h2
  have h4 := encodeRune_length_pos (DecodeRune (c :: rest)).1
  rw [List.length_take] at h3
  omega

/-- Whatever the input, the output of `ToValidUTF8` with an empty
replacement is the encoding of a sequence of scalar values. -/
theorem toValidAux_wellFormed :
    ∀ (fuel : Nat) (inv : Bool) (s : List Nat), s.length ≤ fuel →
      ∃ rs, (∀ r ∈ rs, validScalar r) ∧ toValidAux [] fuel inv s = encodeAll rs := by
  intro fuel
  induction fuel with
  | zero => intro inv s _; exact ⟨[], by simp, by simp [toValidAux, encodeAll]⟩
  | succ k ih =>
    intro inv s hs
    cases s with
    | nil => exact ⟨[], by simp, by simp [toValidAux, encodeAll]⟩
    | cons c rest =>
      simp only [List.length_cons] at hs
      by_cases hc : c < RuneSelf
      · obtain ⟨rs, h1, h2⟩ := ih false rest (by omega)
        refine ⟨c :: rs, ?_, ?_⟩
        · intro r hr
          rcases List.mem_cons.mp hr with rfl | hr
          · unfold RuneSelf at hc; unfold validScalar; omega
          · exact h1 r hr
        · have : c ≤ 0x7F := by unfold RuneSelf at hc; omega
          simp [toValidAux, hc, h2, encodeAll, encodeRune_ascii c this]
      · by_cases hw : (DecodeRune (c :: rest)).2 = 1
        · obtain ⟨rs, h1, h2⟩ := ih true rest (by omega)
          exact ⟨rs, h1, by simp [toValidAux, hc, hw, h2]⟩
        · obtain ⟨v, e, _⟩ := decode_multi c rest hc hw
          have w := decode_width c rest hc hw
          obtain ⟨rs, h1, h2⟩ := ih false ((c :: rest).drop (DecodeRune (c :: rest)).2)
            (by simp only [List.length_drop, List.length_cons]; omega)
          refine ⟨(DecodeRune (c :: rest)).1 :: rs, ?_, ?_⟩
          · intro r hr
            rcases List.mem_cons.mp hr with rfl | hr
            · exact v
            · exact h1 r hr
          · simp only [toValidAux, hc, hw, if_false, encodeAll]
            rw [e, h2]

theorem toValidAux_subset :
    ∀ (fuel : Nat) (inv : Bool) (s : List Nat) (b : Nat),
      b ∈ toValidAux [] fuel inv s → b ∈ s := by
  intro fuel
  induction fuel with
  | zero => intro inv s b h; simp [toValidAux] at h
  | succ k ih =>
    intro inv s b h
    cases s with
    | nil => simp [toValidAux] at h
    | cons c rest =>
      by_cases hc : c < RuneSelf
      · simp only [toValidAux, hc, if_true, List.mem_cons] at h
        rcases h with rfl | h
        · simp
        · exact List.mem_cons_of_mem _ (ih _ _ _ h)
      · by_cases hw : (DecodeRune (c :: rest)).2 = 1
        · simp only [toValidAux, hc, hw, if_true, if_false, ite_self, List.nil_append] at h
          exact List.mem_cons_of_mem _ (ih _ _ _ h)
        · simp only [toValidAux, hc, hw, if_false, List.mem_append] at h
          rcases h with h | h
          · exact List.mem_of_mem_take h
          · exact List.mem_of_mem_drop (ih _ _ _ h)

/-- A sequence accepted by `Valid` is the encoding of scalar values. -/
theorem validAux_wellFormed :
    ∀ (fuel : Nat) (s : List Nat), s.length ≤ fuel → validAux fuel s = true →
      ∃ rs, (∀ r ∈ rs, validScalar r) ∧ s = encodeAll rs := by
  intro fuel
  induction fuel with
  | zero =>
    intro s hs _
    have : s = [] := List.length_eq_zero.mp (by omega)
    exact ⟨[], by simp, by simp [this, encodeAll]⟩
  | succ k ih =>
    intro s hs hv
    cases s with
    | nil => exact ⟨[], by simp, by simp [encodeAll]⟩
    | cons c rest =>
      simp only [List.length_cons] at hs
      by_cases hc : c < RuneSelf
      · simp only [validAux, hc, if_true] at hv
        obtain ⟨rs, h1, h2⟩ := ih rest (by omega) hv
        refine ⟨c :: rs, ?_, ?_⟩
        · intro r hr
          rcases List.mem_cons.mp hr with rfl | hr
          · unfold RuneSelf at hc; unfold validScalar; omega
          · exact h1 r hr
        · have : c ≤ 0x7F := by unfold RuneSelf at hc; omega
          simp [encodeAll, encodeRune_ascii c this, ← h2]
      · by_cases hw : (DecodeRune (c :: rest)).2 = 1
        · simp [validAux, hc, hw] at hv
        · simp only [validAux, hc, hw, if_false] at hv
          obtain ⟨v, e, _⟩ := decode_multi c rest hc hw
          have w := decode_width c rest hc hw
          obtain ⟨rs, h1, h2⟩ := ih ((c :: rest).drop (DecodeRune (c :: rest)).2)
            (by simp only [List.length_drop, List.length_cons]; omega) hv
          refine ⟨(DecodeRune (c :: rest)).1 :: rs, ?_, ?_⟩
          · intro r hr
            rcases List.mem_cons.mp hr with rfl | hr
            · exact v
            · exact h1 r hr
          · simp only [encodeAll]
            rw [← e, ← h2, List.take_append_drop]

theorem ToValidUTF8_wellFormed (s : List Nat) :
    ∃ rs, (∀ r ∈ rs, validScalar r) ∧ ToValidUTF8 s [] = encodeAll rs :=
  toValidAux_wellFormed _ false s (le_refl _)

theorem Valid_wellFormed (s : List Nat) (h : Valid s = true) :
    ∃ rs, (∀ r ∈ rs, validScalar r) ∧ s = encodeAll rs :=
  validAux_wellFormed _ s (le_refl _) h

/-! ## `ReplaceAll` on encoded sequences -/

theorem replaceAux_cons (old new : List Nat) (fuel c : Nat) (rest : List Nat) :
    replaceAux old new (fuel + 1) (c :: rest) =
      if old.isPrefixOf (c :: rest) then
        new ++ replaceAux old new fuel ((c :: rest).drop old.length)
      else c :: replaceAux old new fuel rest := rfl

theorem replaceAux_skip (o : Nat) (os new : List Nat) (e : List Nat) (he : ∀ b ∈ e, b ≠ o) :
    ∀ (k : Nat) (rest : List Nat),
      replaceAux (o :: os) new (e.length + k) (e ++ rest) =
        e ++ replaceAux (o :: os) new k rest := by
  induction e with
  | nil => intro k rest; simp
  | cons b e ih =>
    intro k rest
    have hb : (o == b) = false := by
      have := he b (by simp)
      simp only [beq_eq_false_iff_ne, ne_eq]
      exact fun h => this h.symm
    have e1 : (b :: e).length + k = (e.length + k) + 1 := by simp; omega
    rw [e1, List.cons_append, replaceAux_cons,
      if_neg (by simp [List.isPrefixOf_cons₂, hb]), ih (fun x hx => he x (by simp [hx]))]
    rfl

theorem replaceAux_fuel (old new : List Nat) (hold : old ≠ []) :
    ∀ (fuel1 fuel2 : Nat) (s : List Nat), s.length ≤ fuel1 → s.length ≤ fuel2 →
      replaceAux old new fuel1 s = replaceAux old new fuel2 s := by
  intro fuel1
  induction fuel1 with
  | zero =>
    intro fuel2 s h1 _
    have : s = [] := List.length_eq_zero.mp (by omega)
    subst this
    cases fuel2 <;> simp [replaceAux]
  | succ k ih =>
    intro fuel2 s h1 h2
    cases s with
    | nil => cases fuel2 <;> simp [replaceAux]
    | cons c rest =>
      simp only [List.length_cons] at h1 h2
      obtain ⟨m, rfl⟩ : ∃ m, fuel2 = m + 1 := ⟨fuel2 - 1, by omega⟩
      have hl : 1 ≤ old.length := by
        cases old with
        | nil => exact absurd rfl hold
        | cons a as => simp
      simp only [replaceAux]
      split_ifs
      · rw [ih m _ (by simp only [List.length_drop, List.length_cons]; omega)
          (by simp only [List.length_drop, List.length_cons]; omega)]
      · rw [ih m rest (by omega) (by omega)]

/-- One rune of the first replacement of `san`: the encoding of `U+00A0` is
`C2 A0` and no other encoding contains these two bytes in a row. -/
theorem replaceNbsp_enc (r : Nat) (rest : List Nat) (k : Nat) :
    replaceAux [0xC2, 0xA0] [space] ((EncodeRune r).length + k) (EncodeRune r ++ rest) =
      EncodeRune (nbspToSpace r) ++ replaceAux [0xC2, 0xA0] [space] ((if r = 0xA0 then 1 else 0) + k) rest := by
  by_cases hr : r = 0xA0
  · subst hr
    have e : EncodeRune 0xA0 = [0xC2, 0xA0] := by decide
    have e2 : EncodeRune (nbspToSpace 0xA0) = [space] := by decide
    rw [e, e2]
    have hlen : ([0xC2, 0xA0] : List Nat).length + k = (1 + k) + 1 := by simp; omega
    rw [hlen, List.cons_append, replaceAux_cons, if_pos (by simp [List.isPrefixOf_cons₂])]
    simp
  · have e2 : nbspToSpace r = r := by simp [nbspToSpace, hr]
    simp only [hr, if_false, e2, Nat.zero_add]
    rcases encodeRune_shape r with ⟨h1, e⟩ | ⟨h1, c, tl, e, hc, htl, hb⟩
    · rw [e]
      exact replaceAux_skip 0xC2 [0xA0] [space] [r] (by intro b hb; simp at hb; omega) k rest
    · by_cases hc2 : c = 0xC2
      · -- a two-byte encoding whose second byte is not `A0`
        have h2 : r ≤ 0x7FF := by
          by_contra hn
          unfold EncodeRune at e
          have c1 : ¬ r ≤ 0x7F := by omega
          simp only [c1, hn, if_false] at e
          split_ifs at e <;> simp at e <;> omega
        have e3 : EncodeRune r = [0xC0 + r / 64, 0x80 + r % 64] := by
          have c1 : ¬ r ≤ 0x7F := by omega
          simp [EncodeRune, c1, h2]
        rw [e3] at e ⊢
        simp only [List.cons.injEq] at e
        have hne : ¬ (0x80 + r % 64 = 0xA0) := by omega
        have hne2 : (0xA0 == 0x80 + r % 64) = false := by
          simp only [beq_eq_false_iff_ne, ne_eq]; omega
        have hlen : ([0xC0 + r / 64, 0x80 + r % 64] : List Nat).length + k = (1 + k) + 1 := by
          simp; omega
        rw [hlen, List.cons_append, replaceAux_cons,
          if_neg (by simp [List.isPrefixOf_cons₂, hne2])]
        have := replaceAux_skip 0xC2 [0xA0] [space] [0x80 + r % 64]
          (by intro b hb; simp at hb; omega) k rest
        simp only [List.length_singleton] at this
        rw [this]
        rfl
      · rw [e]
        refine replaceAux_skip 0xC2 [0xA0] [space] (c :: tl) ?_ k rest
        intro b hb'
        rcases List.mem_cons.mp hb' with rfl | hb'
        · exact hc2
        · have := hb b hb'; omega

theorem replaceNbsp_encodeAll (rs : List Nat) :
    ∀ fuel : Nat, (encodeAll rs).length ≤ fuel →
      replaceAux [0xC2, 0xA0] [space] fuel (encodeAll rs) = encodeAll (rs.map nbspToSpace) := by
  induction rs with
  | nil => intro fuel _; cases fuel <;> simp [encodeAll, replaceAux]
  | cons r rs ih =>
    intro fuel hf
    simp only [encodeAll, List.length_append] at hf
    obtain ⟨k, rfl⟩ : ∃ k, fuel = (EncodeRune r).length + k :=
      ⟨fuel - (EncodeRune r).length, by omega⟩
    simp only [encodeAll, List.map_cons]
    rw [replaceNbsp_enc r _ k, ih _ (by omega)]

theorem ReplaceAll_nbsp (rs : List Nat) :
    ReplaceAll (encodeAll rs) [0xC2, 0xA0] [space] = encodeAll (rs.map nbspToSpace) := by
  simp only [ReplaceAll, List.cons_ne_nil, List.cons_ne_self, if_false]
  exact replaceNbsp_encodeAll rs _ (le_refl _)

/-- Replacing a one-byte pattern is a byte-wise substitution. -/
theorem replaceAux_single (a : Nat) (new : List Nat) :
    ∀ (fuel : Nat) (s : List Nat), s.length ≤ fuel →
      replaceAux [a] new fuel s = s.flatMap (fun b => if b = a then new else [b]) := by
  intro fuel
  induction fuel with
  | zero =>
    intro s hs
    have : s = [] := List.length_eq_zero.mp (by omega)
    simp [this, replaceAux]
  | succ k ih =>
    intro s hs
    cases s with
    | nil => simp [replaceAux]
    | cons c rest =>
      simp only [List.length_cons] at hs
      by_cases hc : c = a
      · subst hc
        simp [replaceAux, ih rest (by omega)]
      · have : (a == c) = false := by
          simp only [beq_eq_false_iff_ne, ne_eq]; exact fun h => hc h.symm
        simp [replaceAux, List.isPrefixOf_cons₂, this, hc, ih rest (by omega)]

theorem ReplaceAll_single (a : Nat) (new s : List Nat) :
    ReplaceAll s [a] new = s.flatMap (fun b => if b = a then new else [b]) := by
  simp only [ReplaceAll, List.cons_ne_nil, if_false]
  exact replaceAux_single a new _ s (le_refl _)

theorem flatMap_quote_enc (r : Nat) :
    (EncodeRune r).flatMap (fun b => if b = quote then [quote, quote] else [b]) =
      encodeAll (doubleQuote r) := by
  by_cases hr : r = quote
  · subst hr; decide
  · simp only [doubleQuote, hr, if_false, encodeAll, List.append_nil]
    have : ∀ b ∈ EncodeRune r, b ≠ quote := by
      intro b hb
      unfold quote at hr ⊢
      rcases encodeRune_shape r with ⟨h1, e⟩ | ⟨h1, c, tl, e, hc, htl, hb2⟩
      · rw [e] at hb; simp at hb; omega
      · rw [e] at hb
        rcases List.mem_cons.mp hb with rfl | hb
        · omega
        · have := hb2 b hb; omega
    generalize EncodeRune r = e at this
    induction e with
    | nil => rfl
    | cons b e ih =>
      simp only [List.flatMap_cons, this b (by simp), if_false, List.singleton_append]
      rw [ih (fun x hx => this x (by simp [hx]))]

theorem ReplaceAll_quote (rs : List Nat) :
    ReplaceAll (encodeAll rs) [quote] [quote, quote] = encodeAll (rs.flatMap doubleQuote) := by
  rw [ReplaceAll_single]
  induction rs with
  | nil => rfl
  | cons r rs ih =>
    simp only [encodeAll, List.flatMap_append, List.flatMap_cons, encodeAll_append, ih,
      flatMap_quote_enc]

/-! ## `Trim` on encoded sequences -/

theorem trimRightByte_eq (s : List Nat) (c : Nat) :
    trimRightByte s c = s.rdropWhile (fun b => b == c) := rfl

theorem trimLeft_encodeAll (rs : List Nat) :
    trimLeftByte (encodeAll rs) space = encodeAll (trimLeftByte rs space) := by
  induction rs with
  | nil => rfl
  | cons r rs ih =>
    unfold trimLeftByte at ih ⊢
    by_cases hr : r = space
    · subst hr
      have e : EncodeRune space = [space] := by decide
      simp only [encodeAll, e, List.singleton_append, List.dropWhile_cons, beq_self_eq_true,
        if_true, ih]
    · have hr2 : (r == space) = false := by simpa using hr
      simp only [List.dropWhile_cons, hr2, Bool.false_eq_true, if_false]
      unfold space at hr hr2 ⊢
      rcases encodeRune_shape r with ⟨h1, e⟩ | ⟨h1, c, tl, e, hc, htl, hb⟩
      · simp only [encodeAll, e, List.singleton_append, List.dropWhile_cons, hr2,
          Bool.false_eq_true, if_false]
      · have hc2 : (c == 0x20) = false := by
          simp only [beq_eq_false_iff_ne, ne_eq]; omega
        simp only [encodeAll, e, List.cons_append, List.dropWhile_cons, hc2, Bool.false_eq_true,
          if_false]

theorem encodeRune_last (r : Nat) (hr : r ≠ space) :
    ∃ init l, EncodeRune r = init ++ [l] ∧ l ≠ space := by
  unfold space at hr ⊢
  unfold EncodeRune
  split_ifs
  · exact ⟨[], _, rfl, hr⟩
  · exact ⟨[_], _, rfl, by omega⟩
  · exact ⟨[_, _], _, rfl, by omega⟩
  · exact ⟨[_, _], _, rfl, by omega⟩
  · exact ⟨[_, _, _], _, rfl, by omega⟩

theorem trimRight_encodeAll (rs : List Nat) :
    trimRightByte (encodeAll rs) space = encodeAll (trimRightByte rs space) := by
  simp only [trimRightByte_eq]
  induction rs using List.reverseRecOn with
  | nil => rfl
  | append_singleton rs r ih =>
    by_cases hr : r = space
    · subst hr
      have e : encodeAll [space] = [space] := by decide
      rw [encodeAll_append, e, List.rdropWhile_concat_pos _ _ _ (by simp),
        List.rdropWhile_concat_pos _ _ _ (by simp), ih]
    · obtain ⟨init, l, e, hl⟩ := encodeRune_last r hr
      have e2 : encodeAll [r] = init ++ [l] := by simp [encodeAll, e]
      rw [encodeAll_append, e2, ← List.append_assoc,
        List.rdropWhile_concat_neg _ _ _ (by simpa using hl),
        List.rdropWhile_concat_neg _ _ _ (by simpa using hr), encodeAll_append, e2,
        List.append_assoc]

theorem Trim_encodeAll (rs : List Nat) :
    Trim (encodeAll rs) space = encodeAll (Trim rs space) := by
  unfold Trim
  rw [trimRight_encodeAll, trimLeft_encodeAll]

theorem mem_Trim (s : List Nat) (c b : Nat) (h : b ∈ Trim s c) : b ∈ s := by
  unfold Trim trimLeftByte at h
  have h1 := (List.dropWhile_sublist _).subset h
  rw [trimRightByte_eq] at h1
  exact (List.rdropWhile_prefix _ _).subset h1

/-! ## `san`, rune by rune -/

/-- The output of `san` is the encoding of `sanRunes` applied to the runes
that `ToValidUTF8` keeps. -/
theorem san_encodeAll (pr : Nat → Bool) (rs : List Nat) (hs : ∀ r ∈ rs, validScalar r) (x : List Nat)
    (hx : ToValidUTF8 x [] = encodeAll rs) :
    san pr x = encodeAll (sanRunes pr rs) := by
  unfold san sanRunes
  rw [hx, Map_encodeAll _ rs hs, ReplaceAll_nbsp, ReplaceAll_quote, Trim_encodeAll]

theorem sanMapping_cases (pr : Nat → Bool) (r : Nat) :
    (IsGraphic pr r = true ∧ sanMapping pr r = r) ∨
      (IsGraphic pr r = false ∧ sanMapping pr r = space) := by
  unfold sanMapping
  cases h : IsGraphic pr r <;> simp

theorem isGraphic_space (pr : Nat → Bool) : IsGraphic pr space = true := by
  simp [IsGraphic, space]

theorem isGraphic_quote (pr : Nat → Bool) : IsGraphic pr quote = true := by
  simp [IsGraphic, quote]

/-- Every rune of `sanRunes` is a graphic scalar value other than `U+00A0`. -/
theorem mem_sanRunes (pr : Nat → Bool) (rs : List Nat) (hs : ∀ r ∈ rs, validScalar r) (r : Nat)
    (h : r ∈ sanRunes pr rs) : validScalar r ∧ IsGraphic pr r = true ∧ r ≠ 0xA0 := by
  unfold sanRunes at h
  have h1 := mem_Trim _ _ _ h
  simp only [List.mem_flatMap, List.mem_map, exists_exists_and_eq_and] at h1
  obtain ⟨a, ha, h2⟩ := h1
  have key : validScalar (nbspToSpace (sanMapping pr a)) ∧
      IsGraphic pr (nbspToSpace (sanMapping pr a)) = true ∧ nbspToSpace (sanMapping pr a) ≠ 0xA0 := by
    have hsp : validScalar space := by unfold validScalar space; omega
    rcases sanMapping_cases pr a with ⟨g, e⟩ | ⟨g, e⟩
    · rw [e]
      unfold nbspToSpace
      split_ifs with c
      · exact ⟨hsp, isGraphic_space pr, by unfold space; omega⟩
      · exact ⟨hs a ha, g, c⟩
    · rw [e]
      have : nbspToSpace space = space := by decide
      rw [this]
      exact ⟨hsp, isGraphic_space pr, by unfold space; omega⟩
  unfold doubleQuote at h2
  split_ifs at h2 with c
  · have : r = quote := by simpa using h2
    subst this
    exact ⟨by unfold validScalar quote; omega, isGraphic_quote pr, by unfold quote; omega⟩
  · have : r = nbspToSpace (sanMapping pr a) := by simpa using h2
    rw [this]; exact key

/-! ## Quote runs -/

theorem quoteRunsEven_double (y : List Nat) :
    quoteRunsEven (y.flatMap (fun b => if b = quote then [quote, quote] else [b])) = true := by
  unfold quoteRunsEven
  induction y with
  | nil => rfl
  | cons c y ih =>
    by_cases hc : c = quote
    · simp [hc, quoteRunsEvenAux, ih]
    · simp [hc, quoteRunsEvenAux, ih]

theorem quoteRunsEvenAux_concat (l : List Nat) (c : Nat) (hc : c ≠ quote) :
    ∀ odd : Bool, quoteRunsEvenAux odd (l ++ [c]) = quoteRunsEvenAux odd l := by
  induction l with
  | nil => intro odd; simp [quoteRunsEvenAux, hc]
  | cons a l ih =>
    intro odd
    by_cases ha : a = quote
    · simp [quoteRunsEvenAux, ha, ih]
    · simp [quoteRunsEvenAux, ha, ih]

theorem quoteRunsEven_trimLeft (l : List Nat) :
    quoteRunsEven (trimLeftByte l space) = quoteRunsEven l := by
  unfold trimLeftByte quoteRunsEven
  induction l with
  | nil => rfl
  | cons a l ih =>
    by_cases ha : a = space
    · subst ha
      have : space ≠ quote := by decide
      simp [List.dropWhile_cons, quoteRunsEvenAux, this, ih]
    · have : (a == space) = false := by simpa using ha
      simp [List.dropWhile_cons, this]

theorem quoteRunsEven_trimRight (l : List Nat) :
    quoteRunsEven (trimRightByte l space) = quoteRunsEven l := by
  rw [trimRightByte_eq]
  unfold quoteRunsEven
  induction l using List.reverseRecOn with
  | nil => rfl
  | append_singleton l a ih =>
    by_cases ha : a = space
    · subst ha
      rw [List.rdropWhile_concat_pos _ _ _ (by simp), ih,
        quoteRunsEvenAux_concat l space (by decide)]
    · rw [List.rdropWhile_concat_neg _ _ _ (by simpa using ha)]

theorem quoteRunsEven_Trim (l : List Nat) : quoteRunsEven (Trim l space) = quoteRunsEven l := by
  unfold Trim
  rw [quoteRunsEven_trimLeft, quoteRunsEven_trimRight]

theorem isControl_of_isGraphic (pr : Nat → Bool) (r : Nat) (h : IsGraphic pr r = true) :
    IsControl r = false := by
  unfold IsGraphic at h
  unfold IsControl
  split_ifs at h with c
  · simp only [Bool.or_eq_true, Bool.and_eq_true, decide_eq_true_eq, bne_iff_ne, ne_eq] at h
    simp only [Bool.or_eq_false_iff, Bool.and_eq_false_imp, decide_eq_false_iff_not,
      decide_eq_true_eq]
    omega
  · simp only [Bool.or_eq_false_iff, Bool.and_eq_false_imp, decide_eq_false_iff_not,
      decide_eq_true_eq]
    omega

/-- The runes of the output of `san` are `sanRunes` of the runes of the
validated input. -/
theorem runes_san (pr : Nat → Bool) (x : List Nat) :
    runes (san pr x) = sanRunes pr (runes (ToValidUTF8 x [])) ∧
      san pr x = encodeAll (runes (san pr x)) ∧
      ∀ r ∈ runes (san pr x), validScalar r ∧ IsGraphic pr r = true ∧ r ≠ 0xA0 := by
  obtain ⟨rs, hs, hx⟩ := ToValidUTF8_wellFormed x
  have h1 := san_encodeAll pr rs hs x hx
  have h2 : ∀ r ∈ sanRunes pr rs, validScalar r := fun r hr => (mem_sanRunes pr rs hs r hr).1
  have h3 : runes (san pr x) = sanRunes pr rs := by rw [h1, runes_encodeAll _ h2]
  refine ⟨?_, ?_, ?_⟩
  · rw [h3, hx, runes_encodeAll _ hs]
  · rw [h3, h1]
  · intro r hr
    rw [h3] at hr
    exact mem_sanRunes pr rs hs r hr

/-! ## The writer over a file without limit -/

theorem Flush_good (b : Writer) (h : b.good) :
    b.Flush.2 = false ∧ b.Flush.1.good ∧ b.Flush.1.buf = [] ∧
      b.Flush.1.wr.data = b.written ∧ b.Flush.1.size = b.size := by
  obtain ⟨h1, h2, h3⟩ := h
  unfold Writer.Flush
  simp only [h1, Bool.false_eq_true, if_false]
  by_cases hb : b.buf.length = 0
  · have : b.buf = [] := List.length_eq_zero.mp hb
    simp [hb, Writer.good, h1, h2, h3, Writer.written, this]
  · simp [hb, File.Write, h2, Writer.good, Writer.written, h3]

theorem writeStringAux_good :
    ∀ (fuel : Nat) (b : Writer) (s : List Nat), b.good →
      s.length + (if b.buf = [] then 1 else 2) ≤ fuel →
      (writeStringAux fuel b s).2 = false ∧ (writeStringAux fuel b s).1.good ∧
        (writeStringAux fuel b s).1.written = b.written ++ s := by
  intro fuel
  induction fuel with
  | zero => intro b s _ hf; split_ifs at hf <;> omega
  | succ k ih =>
    intro b s hg hf
    have hg' := hg
    obtain ⟨h1, h2, h3⟩ := hg'
    unfold writeStringAux
    by_cases hlt : b.Available < s.length
    · have hc : (decide (b.Available < s.length) && !b.err) = true := by simp [hlt, h1]
      rw [if_pos hc]
      by_cases hb : b.buf.length = 0
      · have hbn : b.buf = [] := List.length_eq_zero.mp hb
        rw [if_pos hb]
        have hw : b.wr.Write s = ({ b.wr with data := b.wr.data ++ s }, s.length, false) := by
          simp [File.Write, h2]
        rw [hw]
        simp only [List.drop_length]
        have hg1 : ({ b with wr := { b.wr with data := b.wr.data ++ s }, err := false } :
            Writer).good := ⟨rfl, h2, h3⟩
        have hfuel : ([] : List Nat).length +
            (if ({ b with wr := { b.wr with data := b.wr.data ++ s }, err := false } :
              Writer).buf = [] then 1 else 2) ≤ k := by
          simp only [hbn, if_true, List.length_nil]
          unfold Writer.Available at hlt
          simp only [hbn, if_true, List.length_nil] at hf hlt
          omega
        obtain ⟨g1, g2, g3⟩ := ih _ [] hg1 hfuel
        refine ⟨g1, g2, ?_⟩
        rw [g3]
        simp [Writer.written, hbn]
      · rw [if_neg hb]
        have hbn : b.buf ≠ [] := fun h => hb (by simp [h])
        have hmin : min s.length b.Available = b.Available := by omega
        rw [hmin]
        have hg1 : ({ b with buf := b.buf ++ s.take b.Available } : Writer).good := ⟨h1, h2, h3⟩
        obtain ⟨_, f2, f3, f4, f5⟩ := Flush_good _ hg1
        have hfuel : (s.drop b.Available).length +
            (if ({ b with buf := b.buf ++ s.take b.Available } : Writer).Flush.1.buf = [] then 1
              else 2) ≤ k := by
          rw [f3]
          simp only [if_true, List.length_drop]
          simp only [hbn, if_false] at hf
          omega
        obtain ⟨g1, g2, g3⟩ := ih _ (s.drop b.Available) f2 hfuel
        refine ⟨g1, g2, ?_⟩
        rw [g3]
        unfold Writer.written
        rw [f4, f3]
        unfold Writer.written
        simp
    · have hc : ¬ (decide (b.Available < s.length) && !b.err) = true := by simp [hlt]
      rw [if_neg hc, if_neg (by simp [h1])]
      exact ⟨rfl, ⟨h1, h2, h3⟩, by simp [Writer.written]⟩

theorem WriteString_good (b : Writer) (s : List Nat) (h : b.good) :
    (b.WriteString s).2 = false ∧ (b.WriteString s).1.good ∧
      (b.WriteString s).1.written = b.written ++ s := by
  unfold Writer.WriteString
  exact writeStringAux_good _ b s h (by split_ifs <;> omega)

/-- A write to a good writer succeeds and appends its bytes. -/
theorem write_good (e : Fatal) (s : List Nat) (st : State) (h : st.Csv.good) :
    ∃ w, write e s st = .done { st with Csv := w } ∧ w.good ∧
      w.written = st.Csv.written ++ s := by
  obtain ⟨h1, h2, h3⟩ := WriteString_good st.Csv s h
  refine ⟨(st.Csv.WriteString s).1, ?_, h2, h3⟩
  unfold write
  generalize st.Csv.WriteString s = r at h1
  obtain ⟨w, b⟩ := r
  simp only at h1
  subst h1
  rfl

/-! ## The loops of `Run` over a good writer -/

theorem andThen_done (st : State) (f : State → Result) : (Result.done st).andThen f = f st := rfl

theorem andThen_fatal (e : Fatal) (st : State) (f : State → Result) :
    (Result.fatal e st).andThen f = .fatal e st := rfl

theorem cellLoop_good (pr : Nat → Bool) (fl : Flags) :
    ∀ (cells : List (List Nat)) (i : Nat) (st : State), st.Csv.good →
      ∃ w, cellLoop pr fl i cells st = .done { st with Csv := w } ∧ w.good ∧
        w.written = st.Csv.written ++ joinFrom fl.Delimiter i (cells.map (san pr)) := by
  intro cells
  induction cells with
  | nil => intro i st h; exact ⟨st.Csv, rfl, h, by simp [joinFrom]⟩
  | cons c cells ih =>
    intro i st h
    unfold cellLoop
    by_cases hi : i = 0
    · subst hi
      obtain ⟨w1, e1, g1, x1⟩ := write_good .writingString (quoted (san pr c)) st h
      obtain ⟨w2, e2, g2, x2⟩ := ih (0 + 1) { st with Csv := w1 } g1
      refine ⟨w2, ?_, g2, ?_⟩
      · simp only [ne_eq, not_true_eq_false, if_false, andThen_done, e1, e2]
      · simp only at x2
        rw [x2, x1]
        simp [joinFrom]
    · obtain ⟨w0, e0, g0, x0⟩ := write_good .writingDelimiter fl.Delimiter st h
      obtain ⟨w1, e1, g1, x1⟩ :=
        write_good .writingString (quoted (san pr c)) { st with Csv := w0 } g0
      obtain ⟨w2, e2, g2, x2⟩ := ih (i + 1) { st with Csv := w1 } g1
      refine ⟨w2, ?_, g2, ?_⟩
      · simp only [hi, ne_eq, not_false_eq_true, if_true, andThen_done, e0, e1, e2]
      · simp only at x2 x1
        rw [x2, x1, x0]
        simp [joinFrom, hi]

/-- The names the column loop computes from index `i` on. -/
theorem columnLoop_good (fl : Flags) :
    ∀ (types : List ColumnType) (i : Nat) (st : State), st.Csv.good →
      (∀ t ∈ types, t.DatabaseTypeName ≠ BINARY) →
      ∃ w, columnLoop fl i types st = .done { st with Csv := w } ∧ w.good ∧
        w.written = st.Csv.written ++
          (if fl.Headers then
            joinFrom fl.Delimiter i ((types.enumFrom i).map fun p => columnName p.1 p.2)
           else []) := by
  intro types
  induction types with
  | nil => intro i st h _; exact ⟨st.Csv, rfl, h, by simp [joinFrom]⟩
  | cons t types ih =>
    intro i st h hb
    have hb1 : t.DatabaseTypeName ≠ BINARY := hb t (by simp)
    have hb2 : ∀ t ∈ types, t.DatabaseTypeName ≠ BINARY := fun x hx => hb x (by simp [hx])
    unfold columnLoop
    by_cases hh : fl.Headers = true
    · by_cases hi : i = 0
      · subst hi
        obtain ⟨w1, e1, g1, x1⟩ := write_good .writingColumnName (quoted (columnName 0 t)) st h
        obtain ⟨w2, e2, g2, x2⟩ := ih (0 + 1) { st with Csv := w1 } g1 hb2
        refine ⟨w2, ?_, g2, ?_⟩
        · simp only [hh, ne_eq, not_true_eq_false, if_false, if_true, andThen_done, e1, e2,
            hb1]
        · simp only at x2
          rw [x2, x1]
          simp [joinFrom, hh, List.enumFrom_cons]
      · obtain ⟨w0, e0, g0, x0⟩ := write_good .writingDelimiter fl.Delimiter st h
        obtain ⟨w1, e1, g1, x1⟩ :=
          write_good .writingColumnName (quoted (columnName i t)) { st with Csv := w0 } g0
        obtain ⟨w2, e2, g2, x2⟩ := ih (i + 1) { st with Csv := w1 } g1 hb2
        refine ⟨w2, ?_, g2, ?_⟩
        · simp only [hh, hi, ne_eq, not_false_eq_true, if_false, if_true, andThen_done, e0, e1,
            e2, hb1]
        · simp only at x2 x1
          rw [x2, x1, x0]
          simp [joinFrom, hi, hh, List.enumFrom_cons]
    · obtain ⟨w2, e2, g2, x2⟩ := ih (i + 1) st h hb2
      refine ⟨w2, ?_, g2, ?_⟩
      · simp only [hh, Bool.false_eq_true, if_false, andThen_done, e2, hb1]
      · rw [x2]; simp [hh]

theorem intercalate_cons (d a : List Nat) (l : List (List Nat)) :
    List.intercalate d (a :: l) = a ++ l.flatMap fun f => d ++ f := by
  induction l generalizing a with
  | nil => simp [List.intercalate]
  | cons b l ih =>
    have := ih b
    simp only [List.intercalate, List.intersperse, List.flatten_cons, List.flatMap_cons] at this ⊢
    rw [this]
    simp

theorem joinFrom_succ (d : List Nat) (fs : List (List Nat)) :
    ∀ i : Nat, joinFrom d (i + 1) fs = fs.flatMap fun f => d ++ quoted f := by
  induction fs with
  | nil => intro i; rfl
  | cons f fs ih => intro i; simp [joinFrom, ih]

/-- The field loop from index 0 writes the fields joined by the delimiter. -/
theorem joinFrom_zero (d : List Nat) (fs : List (List Nat)) :
    joinFrom d 0 fs = List.intercalate d (fs.map quoted) := by
  cases fs with
  | nil => simp [joinFrom, List.intercalate]
  | cons f fs =>
    simp [joinFrom, joinFrom_succ, intercalate_cons, List.flatMap_map]

theorem san_nil (pr : Nat → Bool) : san pr [] = [] := rfl

theorem dataFields_eq (pr : Nat → Bool) (vs : List (Option (List Nat))) :
    (vs.map fun v => v.getD []).map (san pr) = dataFields pr vs := by
  unfold dataFields
  rw [List.map_map]
  apply List.map_congr_left
  intro v _
  cases v with
  | none => exact san_nil pr
  | some c => rfl

theorem rowLoop_good (pr : Nat → Bool) (fl : Flags) (ncells : Nat) :
    ∀ (vss : List (List (Option (List Nat)))) (st : State), st.Csv.good →
      (∀ vs ∈ vss, vs.length = ncells) →
      ∃ w, rowLoop pr fl ncells (vss.map Row.values) st =
          .done { Csv := w, nextCalls := st.nextCalls + vss.length + 1,
                  scanCalls := st.scanCalls + vss.length,
                  counter := st.counter + vss.length } ∧
        w.good ∧
        w.written = st.Csv.written ++
          (vss.map fun vs => specRecord fl.Delimiter (Eol fl) (dataFields pr vs)).flatten := by
  intro vss
  induction vss with
  | nil =>
    intro st h _
    exact ⟨st.Csv, rfl, h, by simp⟩
  | cons vs vss ih =>
    intro st h hl
    have hl1 : vs.length = ncells := hl vs (by simp)
    have hl2 : ∀ vs ∈ vss, vs.length = ncells := fun x hx => hl x (by simp [hx])
    obtain ⟨w1, e1, g1, x1⟩ := cellLoop_good pr fl (vs.map fun v => v.getD []) 0
      { st with nextCalls := st.nextCalls + 1, scanCalls := st.scanCalls + 1 } h
    obtain ⟨w2, e2, g2, x2⟩ := write_good .writingEol (Eol fl)
      { st with Csv := w1, nextCalls := st.nextCalls + 1, scanCalls := st.scanCalls + 1 } g1
    obtain ⟨w3, e3, g3, x3⟩ := ih
      { Csv := w2, nextCalls := st.nextCalls + 1, scanCalls := st.scanCalls + 1,
        counter := st.counter + 1 } g2 hl2
    refine ⟨w3, ?_, g3, ?_⟩
    · simp only [List.map_cons, rowLoop, Scan, hl1, ne_eq, not_true_eq_false, if_false, e1,
        andThen_done, e2, e3, List.length_cons]
      congr 2 <;> omega
    · simp only at x1 x2 x3
      rw [x3, x2, x1, dataFields_eq, joinFrom_zero]
      simp [specRecord]

theorem headerFields_eq (types : List ColumnType) :
    ((types.enumFrom 0).map fun p => columnName p.1 p.2) = headerFields types := rfl

theorem initialState_good : (initialState none).Csv.good := by
  simp [initialState, NewWriterSize, Writer.good]

/-- The export of a result set without BINARY column, every row with one
value per column, into a file that accepts every write. -/
theorem Execute_rows (pr : Nat → Bool) (fl : Flags) (types : List ColumnType)
    (vss : List (List (Option (List Nat))))
    (hb : ∀ t ∈ types, t.DatabaseTypeName ≠ BINARY)
    (hl : ∀ vs ∈ vss, vs.length = types.length) :
    ∃ w, Execute pr fl none (.rows types (vss.map Row.values)) =
        .done { Csv := w, nextCalls := vss.length + 1, scanCalls := vss.length,
                counter := vss.length } ∧
      w.good ∧ w.buf = [] ∧ w.wr.data = specOutput pr fl types vss := by
  obtain ⟨w1, e1, g1, x1⟩ := columnLoop_good fl types 0 (initialState none) initialState_good hb
  have hw0 : (initialState none).Csv.written = [] := rfl
  rw [hw0, List.nil_append, headerFields_eq, joinFrom_zero] at x1
  have step2 : ∃ w2, ((columnLoop fl 0 types (initialState none)).andThen fun st1 =>
      if fl.Headers then write .writingEol (Eol fl) st1 else .done st1) =
        .done { initialState none with Csv := w2 } ∧ w2.good ∧
        w2.written =
          if fl.Headers then specRecord fl.Delimiter (Eol fl) (headerFields types) else [] := by
    rw [e1, andThen_done]
    by_cases hh : fl.Headers = true
    · obtain ⟨w2, e2, g2, x2⟩ := write_good .writingEol (Eol fl)
        { initialState none with Csv := w1 } g1
      refine ⟨w2, ?_, g2, ?_⟩
      · simp only [hh, if_true, e2]
      · simp only at x2
        rw [x2, x1]
        simp [hh, specRecord]
    · refine ⟨w1, ?_, g1, ?_⟩
      · simp only [hh, Bool.false_eq_true, if_false]
      · rw [x1]
        simp [hh]
  obtain ⟨w2, e2, g2, x2⟩ := step2
  obtain ⟨w3, e3, g3, x3⟩ := rowLoop_good pr fl types.length vss
    { Csv := w2, nextCalls := 0, scanCalls := 0, counter := 0 } g2 hl
  obtain ⟨f1, f2, f3, f4, f5⟩ := Flush_good w3 g3
  refine ⟨w3.Flush.1, ?_, f2, f3, ?_⟩
  · unfold Execute Run
    simp only [e2, andThen_done]
    have : ({ Csv := w2, nextCalls := (initialState none).nextCalls,
              scanCalls := (initialState none).scanCalls, counter := 0 } : State) =
        { Csv := w2, nextCalls := 0, scanCalls := 0, counter := 0 } := rfl
    rw [this, e3]
    simp [PostRun]
  · rw [f4, x3]
    simp only at x2 ⊢
    rw [x2]
    rfl

/-! ## The column loop over any writer -/

theorem write_cases (e : Fatal) (s : List Nat) (st : State) :
    (∃ w, write e s st = .done { st with Csv := w }) ∨
      (∃ w, write e s st = .fatal e { st with Csv := w }) := by
  unfold write
  generalize st.Csv.WriteString s = r
  obtain ⟨w, b⟩ := r
  cases b
  · exact Or.inl ⟨w, rfl⟩
  · exact Or.inr ⟨w, rfl⟩

/-- The header writes of one column leave the counters as they are and can
only fail with a write error. -/
theorem headerStep_cases (fl : Flags) (i : Nat) (name : List Nat) (st : State) :
    (∃ st1, (if fl.Headers then
        (if i ≠ 0 then write .writingDelimiter fl.Delimiter st else .done st).andThen
          (write .writingColumnName (quoted name))
       else .done st) = .done st1 ∧ st1.counters = st.counters) ∨
    (∃ e st1, (if fl.Headers then
        (if i ≠ 0 then write .writingDelimiter fl.Delimiter st else .done st).andThen
          (write .writingColumnName (quoted name))
       else .done st) = .fatal e st1 ∧ st1.counters = st.counters ∧ e.isHeaderWrite = true) := by
  by_cases hh : fl.Headers = true
  · simp only [hh, if_true]
    have second : ∀ st0 : State, st0.counters = st.counters →
        (∃ st1, write .writingColumnName (quoted name) st0 = .done st1 ∧
          st1.counters = st.counters) ∨
        (∃ e st1, write .writingColumnName (quoted name) st0 = .fatal e st1 ∧
          st1.counters = st.counters ∧ e.isHeaderWrite = true) := by
      intro st0 h0
      rcases write_cases .writingColumnName (quoted name) st0 with ⟨w, e⟩ | ⟨w, e⟩
      · exact Or.inl ⟨_, e, h0⟩
      · exact Or.inr ⟨_, _, e, h0, rfl⟩
    by_cases hi : i = 0
    · simp only [hi, ne_eq, not_true_eq_false, if_false, andThen_done]
      exact second st rfl
    · simp only [hi, ne_eq, not_false_eq_true, if_true]
      rcases write_cases .writingDelimiter fl.Delimiter st with ⟨w, e⟩ | ⟨w, e⟩
      · rw [e, andThen_done]
        exact second _ rfl
      · rw [e, andThen_fatal]
        exact Or.inr ⟨_, _, rfl, rfl, rfl⟩
  · simp only [hh, Bool.false_eq_true, if_false]
    exact Or.inl ⟨st, rfl, rfl⟩

/-- With a BINARY column the column loop ends in `log.Fatal`, the counters
untouched: by the BINARY check, or before it by a failed header write. -/
theorem columnLoop_binary (fl : Flags) :
    ∀ (types : List ColumnType) (i : Nat) (st : State),
      (∃ t ∈ types, t.DatabaseTypeName = BINARY) →
      ∃ e st1, columnLoop fl i types st = .fatal e st1 ∧ st1.counters = st.counters ∧
        (e.isHeaderWrite = true ∨ e.isBinaryType = true) := by
  intro types
  induction types with
  | nil => intro i st h; obtain ⟨t, ht, _⟩ := h; simp at ht
  | cons t types ih =>
    intro i st h
    unfold columnLoop
    rcases headerStep_cases fl i (columnName i t) st with ⟨st1, e1, c1⟩ | ⟨e, st1, e1, c1, k1⟩
    · rw [e1, andThen_done]
      by_cases hb : t.DatabaseTypeName = BINARY
      · simp only [hb, if_true]
        exact ⟨_, _, rfl, c1, Or.inr rfl⟩
      · simp only [hb, if_false]
        have h2 : ∃ t ∈ types, t.DatabaseTypeName = BINARY := by
          obtain ⟨x, hx, hx2⟩ := h
          rcases List.mem_cons.mp hx with rfl | hx
          · exact absurd hx2 hb
          · exact ⟨x, hx, hx2⟩
        obtain ⟨e2, st2, e3, c2, k2⟩ := ih (i + 1) st1 h2
        exact ⟨e2, st2, e3, c2.trans c1, k2⟩
    · rw [e1, andThen_fatal]
      exact ⟨e, st1, rfl, c1, Or.inl k1⟩

/-- Over a good writer the column loop with a BINARY column ends in the
BINARY check. -/
theorem columnLoop_binary_good (fl : Flags) :
    ∀ (types : List ColumnType) (i : Nat) (st : State), st.Csv.good →
      (∃ t ∈ types, t.DatabaseTypeName = BINARY) →
      ∃ name st1, columnLoop fl i types st = .fatal (.binaryType name) st1 ∧
        st1.counters = st.counters ∧ st1.Csv.good ∧
        ∃ j t, types[j]? = some t ∧ t.DatabaseTypeName = BINARY ∧
          (∀ k u, k < j → types[k]? = some u → u.DatabaseTypeName ≠ BINARY) ∧
          name = columnName (i + j) t := by
  intro types
  induction types with
  | nil => intro i st _ h; obtain ⟨t, ht, _⟩ := h; simp at ht
  | cons t types ih =>
    intro i st hg h
    have hstep : ∃ w, (if fl.Headers then
        (if i ≠ 0 then write .writingDelimiter fl.Delimiter st else .done st).andThen
          (write .writingColumnName (quoted (columnName i t)))
       else .done st) = .done { st with Csv := w } ∧ w.good := by
      by_cases hh : fl.Headers = true
      · by_cases hi : i = 0
        · obtain ⟨w1, e1, g1, _⟩ :=
            write_good .writingColumnName (quoted (columnName i t)) st hg
          exact ⟨w1, by rw [if_pos hh, if_neg (by simp [hi]), andThen_done, e1], g1⟩
        · obtain ⟨w0, e0, g0, _⟩ := write_good .writingDelimiter fl.Delimiter st hg
          obtain ⟨w1, e1, g1, _⟩ :=
            write_good .writingColumnName (quoted (columnName i t)) { st with Csv := w0 } g0
          exact ⟨w1, by simp only [hh, hi, ne_eq, not_false_eq_true, if_true, andThen_done, e0,
            e1], g1⟩
      · exact ⟨st.Csv, by simp only [hh, Bool.false_eq_true, if_false], hg⟩
    obtain ⟨w, e1, g1⟩ := hstep
    unfold columnLoop
    rw [e1, andThen_done]
    by_cases hb : t.DatabaseTypeName = BINARY
    · simp only [hb, if_true]
      exact ⟨columnName i t, _, rfl, rfl, g1, 0, t, by simp, hb,
        fun k u hk _ => absurd hk (Nat.not_lt_zero k), rfl⟩
    · simp only [hb, if_false]
      have h2 : ∃ t ∈ types, t.DatabaseTypeName = BINARY := by
        obtain ⟨x, hx, hx2⟩ := h
        rcases List.mem_cons.mp hx with rfl | hx
        · exact absurd hx2 hb
        · exact ⟨x, hx, hx2⟩
      obtain ⟨name, st2, e3, c2, g2, j, u, hu, hub, hfirst, hn⟩ :=
        ih (i + 1) { st with Csv := w } g1 h2
      refine ⟨name, st2, e3, c2, g2, j + 1, u, by simpa using hu, hub, ?_, ?_⟩
      · intro k v hk hv
        cases k with
        | zero =>
          have : v = t := by simpa using hv.symm
          rw [this]; exact hb
        | succ k => exact hfirst k v (by omega) (by simpa using hv)
      · rw [hn]
        congr 1
        omega

/-! ## `Run` over a good writer, whatever the rows -/

theorem rowLoop_any (pr : Nat → Bool) (fl : Flags) (ncells : Nat) :
    ∀ (rows : List Row) (st : State), st.Csv.good →
      (∃ st1, rowLoop pr fl ncells rows st = .done st1 ∧ st1.Csv.good) ∨
        (∃ st1, rowLoop pr fl ncells rows st = .fatal .scan st1 ∧ st1.Csv.good) := by
  intro rows
  induction rows with
  | nil => intro st h; exact Or.inl ⟨_, rfl, h⟩
  | cons row rows ih =>
    intro st h
    unfold rowLoop
    cases hs : Scan ncells row with
    | none => exact Or.inr ⟨_, rfl, h⟩
    | some cells =>
      simp only
      obtain ⟨w1, e1, g1, _⟩ := cellLoop_good pr fl cells 0
        { st with nextCalls := st.nextCalls + 1, scanCalls := st.scanCalls + 1 } h
      obtain ⟨w2, e2, g2, _⟩ := write_good .writingEol (Eol fl)
        { st with Csv := w1, nextCalls := st.nextCalls + 1, scanCalls := st.scanCalls + 1 } g1
      rw [e1, andThen_done, e2, andThen_done]
      exact ih _ g2

theorem Run_rows (pr : Nat → Bool) (fl : Flags) (types : List ColumnType) (rows : List Row)
    (st : State) :
    Run pr fl (.rows types rows) st =
      ((columnLoop fl 0 types st).andThen fun st1 =>
        if fl.Headers then write .writingEol (Eol fl) st1 else .done st1).andThen fun st2 =>
          rowLoop pr fl types.length rows { st2 with counter := 0 } := rfl

/-- Over a good writer `Run` ends normally, in the BINARY check or in a
failed `Scan`; the writer stays good. -/
theorem Run_rows_any (pr : Nat → Bool) (fl : Flags) (types : List ColumnType) (rows : List Row)
    (st : State) (h : st.Csv.good) :
    ((∃ t ∈ types, t.DatabaseTypeName = BINARY) ∧
      ∃ name st1, Run pr fl (.rows types rows) st = .fatal (.binaryType name) st1 ∧
        st1.counters = st.counters ∧ st1.Csv.good ∧
        ∃ j t, types[j]? = some t ∧ t.DatabaseTypeName = BINARY ∧
          (∀ k u, k < j → types[k]? = some u → u.DatabaseTypeName ≠ BINARY) ∧
          name = columnName j t) ∨
    ((∀ t ∈ types, t.DatabaseTypeName ≠ BINARY) ∧
      ((∃ st1, Run pr fl (.rows types rows) st = .done st1 ∧ st1.Csv.good) ∨
        (∃ st1, Run pr fl (.rows types rows) st = .fatal .scan st1 ∧ st1.Csv.good))) := by
  by_cases hb : ∃ t ∈ types, t.DatabaseTypeName = BINARY
  · obtain ⟨name, st1, e1, c1, g1, j, t, h1, h2, h3, h4⟩ :=
      columnLoop_binary_good fl types 0 st h hb
    refine Or.inl ⟨hb, name, st1, ?_, c1, g1, j, t, h1, h2, h3, by simpa using h4⟩
    rw [Run_rows, e1, andThen_fatal, andThen_fatal]
  · have hb2 : ∀ t ∈ types, t.DatabaseTypeName ≠ BINARY := by
      intro t ht hc
      exact hb ⟨t, ht, hc⟩
    refine Or.inr ⟨hb2, ?_⟩
    obtain ⟨w1, e1, g1, _⟩ := columnLoop_good fl types 0 st h hb2
    rw [Run_rows, e1, andThen_done]
    by_cases hh : fl.Headers = true
    · obtain ⟨w2, e2, g2, _⟩ := write_good .writingEol (Eol fl) { st with Csv := w1 } g1
      simp only [hh, if_true, e2, andThen_done]
      exact rowLoop_any pr fl types.length rows _ g2
    · simp only [hh, Bool.false_eq_true, if_false, andThen_done]
      exact rowLoop_any pr fl types.length rows _ g1

theorem Run_good (pr : Nat → Bool) (fl : Flags) (q : Query) (st : State) (h : st.Csv.good) :
    (Run pr fl q st).state.Csv.good := by
  cases q with
  | queryError => exact h
  | columnTypesError => exact h
  | rows types rows =>
    rcases Run_rows_any pr fl types rows st h with
      ⟨_, _, st1, e, _, g, _⟩ | ⟨_, ⟨st1, e, g⟩ | ⟨st1, e, g⟩⟩
    all_goals rw [e]; exact g

/-! ## More on `san` -/

theorem san_quoteRunsEven (pr : Nat → Bool) (x : List Nat) : quoteRunsEven (san pr x) = true := by
  unfold san
  rw [quoteRunsEven_Trim, ReplaceAll_single]
  exact quoteRunsEven_double _

theorem mem_encodeAll_ascii (rs : List Nat) (b : Nat) (hb : b < 0x80) (h : b ∈ encodeAll rs) :
    b ∈ rs := by
  induction rs with
  | nil => simp [encodeAll] at h
  | cons r rs ih =>
    simp only [encodeAll, List.mem_append] at h
    rcases h with h | h
    · rcases encodeRune_shape r with ⟨_, e⟩ | ⟨_, c, tl, e, hc, _, htl⟩
      · rw [e] at h
        simp at h
        simp [h]
      · rw [e] at h
        rcases List.mem_cons.mp h with rfl | h
        · omega
        · have := htl b h; omega
    · exact List.mem_cons_of_mem _ (ih h)

theorem mem_encodeAll_of_mem (rs : List Nat) (r : Nat) (hr : r ≤ 0x7F) (h : r ∈ rs) :
    r ∈ encodeAll rs := by
  induction rs with
  | nil => simp at h
  | cons a rs ih =>
    simp only [encodeAll, List.mem_append]
    rcases List.mem_cons.mp h with rfl | h
    · left; rw [encodeRune_ascii r hr]; simp
    · right; exact ih h

theorem Trim_idem (l : List Nat) (c : Nat) : Trim (Trim l c) c = Trim l c := by
  unfold Trim trimLeftByte
  simp only [trimRightByte_eq]
  have key : List.rdropWhile (fun b => b == c)
      (List.dropWhile (fun b => b == c) (List.rdropWhile (fun b => b == c) l)) =
      List.dropWhile (fun b => b == c) (List.rdropWhile (fun b => b == c) l) := by
    rw [List.rdropWhile_eq_self_iff]
    intro hn
    have hsuf := List.dropWhile_suffix (l := List.rdropWhile (fun b => b == c) l)
      (fun b => b == c)
    have hm : List.rdropWhile (fun b => b == c) l ≠ [] := by
      intro h0
      rw [h0] at hn
      simp at hn
    rw [hsuf.getLast hn]
    exact List.rdropWhile_last_not _ _ hm
  rw [key, List.dropWhile_idempotent]

theorem sanRunes_id (pr : Nat → Bool) (l : List Nat)
    (h : ∀ r ∈ l, IsGraphic pr r = true ∧ r ≠ 0xA0 ∧ r ≠ quote) :
    sanRunes pr l = Trim l space := by
  unfold sanRunes
  congr 1
  induction l with
  | nil => rfl
  | cons a l ih =>
    obtain ⟨h1, h2, h3⟩ := h a (by simp)
    have e1 : sanMapping pr a = a := by simp [sanMapping, h1]
    have e2 : nbspToSpace a = a := by simp [nbspToSpace, h2]
    have e3 : doubleQuote a = [a] := by simp [doubleQuote, h3]
    simp only [List.map_cons, List.flatMap_cons, e1, e2, e3, List.singleton_append]
    rw [ih (fun r hr => h r (by simp [hr]))]

theorem quote_mem_sanRunes (pr : Nat → Bool) (rs : List Nat) (h : quote ∈ sanRunes pr rs) :
    quote ∈ rs := by
  unfold sanRunes at h
  have h1 := mem_Trim _ _ _ h
  simp only [List.mem_flatMap, List.mem_map, exists_exists_and_eq_and] at h1
  obtain ⟨a, ha, h2⟩ := h1
  have hsq : space ≠ quote := by decide
  have key : nbspToSpace (sanMapping pr a) = quote → a = quote := by
    intro hq
    have h3 : sanMapping pr a = quote := by
      unfold nbspToSpace at hq
      split_ifs at hq with c
      · exact absurd hq hsq
      · exact hq
    rcases sanMapping_cases pr a with ⟨_, e⟩ | ⟨_, e⟩
    · rw [e] at h3; exact h3
    · rw [e] at h3; exact absurd h3 hsq
  unfold doubleQuote at h2
  split_ifs at h2 with c
  · rw [← key c]; exact ha
  · have : quote = nbspToSpace (sanMapping pr a) := by simpa using h2
    rw [← key this.symm]; exact ha

theorem ToValidUTF8_subset (x : List Nat) (b : Nat) (h : b ∈ ToValidUTF8 x []) : b ∈ x :=
  toValidAux_subset x.length false x b h

theorem quote_le : quote ≤ 0x7F := by decide

/-- On input without a double quote `san` is idempotent. -/
theorem san_idem (pr : Nat → Bool) (x : List Nat) (hq : quote ∉ x) :
    san pr (san pr x) = san pr x := by
  obtain ⟨rs, hs, hx⟩ := ToValidUTF8_wellFormed x
  have hqr : quote ∉ rs := by
    intro h
    have h1 := mem_encodeAll_of_mem rs quote quote_le h
    rw [← hx] at h1
    exact hq (ToValidUTF8_subset x quote h1)
  have h1 := san_encodeAll pr rs hs x hx
  have hout : ∀ r ∈ sanRunes pr rs, validScalar r := fun r hr => (mem_sanRunes pr rs hs r hr).1
  have h2 := san_encodeAll pr (sanRunes pr rs) hout (encodeAll (sanRunes pr rs))
    (ToValidUTF8_encodeAll [] _ hout)
  rw [h1, h2]
  apply congrArg encodeAll
  rw [sanRunes_id pr (sanRunes pr rs)]
  · unfold sanRunes
    exact Trim_idem _ _
  · intro r hr
    obtain ⟨_, g, n⟩ := mem_sanRunes pr rs hs r hr
    refine ⟨g, n, ?_⟩
    intro hrq
    subst hrq
    exact hqr (quote_mem_sanRunes pr rs hr)

theorem isGraphic_of_isPrint (pr : Nat → Bool) (r : Nat) (h : IsPrint pr r = true) :
    IsGraphic pr r = true ∧ r ≠ 0xA0 := by
  unfold IsPrint at h
  unfold IsGraphic
  split_ifs at h ⊢ with c
  · simp only [Bool.or_eq_true, Bool.and_eq_true, decide_eq_true_eq, bne_iff_ne, ne_eq] at h ⊢
    omega
  · simp only [h, Bool.true_or, true_and]
    omega

/-- On well-formed printable input without a double quote `san` only trims. -/
theorem san_printable (pr : Nat → Bool) (x : List Nat) (hv : Valid x = true)
    (hp : ∀ r ∈ runes x, IsPrint pr r = true) (hq : quote ∉ x) :
    san pr x = Trim x space := by
  obtain ⟨rs, hs, hx⟩ := Valid_wellFormed x hv
  subst hx
  rw [runes_encodeAll rs hs] at hp
  rw [san_encodeAll pr rs hs _ (ToValidUTF8_encodeAll [] rs hs), Trim_encodeAll]
  apply congrArg encodeAll
  apply sanRunes_id
  intro r hr
  obtain ⟨g, n⟩ := isGraphic_of_isPrint pr r (hp r hr)
  refine ⟨g, n, ?_⟩
  intro hrq
  subst hrq
  exact hq (mem_encodeAll_of_mem rs quote quote_le hr)

/-! ## Counting delimiters outside quoted content -/

theorem not_isPrefixOf_of_head (d : List Nat) (c : Nat) (rest : List Nat) (h1 : d ≠ [])
    (h2 : c ∉ d) : d.isPrefixOf (c :: rest) = false := by
  cases d with
  | nil => exact absurd rfl h1
  | cons x xs =>
    have : (x == c) = false := by
      simp only [beq_eq_false_iff_ne, ne_eq]
      intro h; subst h; exact h2 (by simp)
    simp [List.isPrefixOf_cons₂, this]

theorem countDelimsAux_cons (d : List Nat) (fuel : Nat) (inQuotes : Bool) (c : Nat)
    (rest : List Nat) :
    countDelimsAux d (fuel + 1) inQuotes (c :: rest) =
      if inQuotes then countDelimsAux d fuel (c != quote) rest
      else if d ≠ [] ∧ d.isPrefixOf (c :: rest) then
        1 + countDelimsAux d fuel false ((c :: rest).drop d.length)
      else countDelimsAux d fuel (c == quote) rest := rfl

/-- Quoted content with even quote runs, up to the closing quote, holds no
delimiter outside quotes and leaves the scan outside quotes. -/
theorem countDelimsAux_content (d : List Nat) (h1 : d ≠ []) (h2 : quote ∉ d) (tail : List Nat)
    (k : Nat) :
    ∀ (c : List Nat) (odd : Bool), quoteRunsEvenAux odd c = true →
      countDelimsAux d (c.length + 1 + k) (!odd) (c ++ quote :: tail) =
        countDelimsAux d k false tail := by
  intro c
  induction c with
  | nil =>
    intro odd h
    have ho : odd = false := by simpa [quoteRunsEvenAux] using h
    subst ho
    have e : ([] : List Nat).length + 1 + k = k + 1 := by simp; omega
    rw [e, List.nil_append, countDelimsAux_cons]
    simp
  | cons a c ih =>
    intro odd h
    have hf : (a :: c).length + 1 + k = (c.length + 1 + k) + 1 := by simp; omega
    rw [hf, List.cons_append, countDelimsAux_cons]
    by_cases ha : a = quote
    · subst ha
      simp only [quoteRunsEvenAux, if_true] at h
      have := ih (!odd) h
      cases odd
      · simpa using this
      · simp only [Bool.not_true, Bool.false_eq_true, if_false,
          not_isPrefixOf_of_head d quote _ h1 h2, and_false, beq_self_eq_true]
        simpa using this
    · simp only [quoteRunsEvenAux, ha, if_false, Bool.and_eq_true, Bool.not_eq_true'] at h
      obtain ⟨ho, h⟩ := h
      subst ho
      have := ih false h
      simp only [Bool.not_false, if_true]
      have hne : (a != quote) = true := by simpa using ha
      rw [hne]
      simpa using this

theorem quoted_length (f : List Nat) : (quoted f).length = f.length + 2 := by
  simp [quoted]

theorem countDelimsAux_field (d : List Nat) (h1 : d ≠ []) (h2 : quote ∉ d) (f tail : List Nat)
    (k : Nat) (hf : quoteRunsEven f = true) :
    countDelimsAux d (f.length + 2 + k) false (quoted f ++ tail) =
      countDelimsAux d k false tail := by
  have e : quoted f ++ tail = quote :: (f ++ quote :: tail) := by simp [quoted]
  have e2 : f.length + 2 + k = (f.length + 1 + k) + 1 := by omega
  rw [e, e2, countDelimsAux_cons]
  simp only [Bool.false_eq_true, if_false, not_isPrefixOf_of_head d quote _ h1 h2, and_false,
    beq_self_eq_true]
  exact countDelimsAux_content d h1 h2 tail k f false hf

theorem countDelimsAux_delim (d : List Nat) (h1 : d ≠ []) (tail : List Nat) (k : Nat) :
    countDelimsAux d (k + 1) false (d ++ tail) = 1 + countDelimsAux d k false tail := by
  cases d with
  | nil => exact absurd rfl h1
  | cons x xs =>
    have hp : (x :: xs).isPrefixOf (x :: (xs ++ tail)) = true := by
      rw [List.isPrefixOf_iff_prefix]
      exact List.prefix_append (x :: xs) tail
    rw [List.cons_append, countDelimsAux_cons]
    simp only [Bool.false_eq_true, if_false, ne_eq, List.cons_ne_nil, not_false_eq_true, hp,
      and_self, if_true]
    have : List.drop (x :: xs).length (x :: (xs ++ tail)) = tail := by
      rw [← List.cons_append, List.drop_left]
    rw [this]

theorem countDelimsAux_eol (d : List Nat) (hd : delimiterOk d) (fl : Flags) (k : Nat) :
    countDelimsAux d k false (Eol fl) = 0 := by
  obtain ⟨h1, _, h3, h4⟩ := hd
  have plf : ∀ n, countDelimsAux d n false [0x0A] = 0 := by
    intro n
    cases n with
    | zero => rfl
    | succ n =>
      rw [countDelimsAux_cons]
      simp only [Bool.false_eq_true, if_false, not_isPrefixOf_of_head d 0x0A _ h1 h4, and_false]
      cases n <;> rfl
  unfold Eol
  split_ifs
  · exact plf k
  · cases k with
    | zero => rfl
    | succ n =>
      rw [countDelimsAux_cons]
      simp only [Bool.false_eq_true, if_false, not_isPrefixOf_of_head d 0x0D _ h1 h3, and_false]
      have : ((0x0D : Nat) == quote) = false := by decide
      rw [this]
      exact plf n

theorem countDelimsAux_fields (d : List Nat) (hd : delimiterOk d) (fl : Flags) :
    ∀ (fs : List (List Nat)) (k : Nat), (∀ f ∈ fs, quoteRunsEven f = true) →
      ((fs.flatMap fun f => d ++ quoted f) ++ Eol fl).length ≤ k →
      countDelimsAux d k false ((fs.flatMap fun f => d ++ quoted f) ++ Eol fl) = fs.length := by
  intro fs
  induction fs with
  | nil => intro k _ _; simpa using countDelimsAux_eol d hd fl k
  | cons f fs ih =>
    intro k hq hk
    obtain ⟨h1, h2, _, _⟩ := hd
    have hdl : 1 ≤ d.length := by
      cases d with
      | nil => exact absurd rfl h1
      | cons x xs => simp
    simp only [List.flatMap_cons, List.append_assoc, List.length_append, quoted_length] at hk
    obtain ⟨k1, rfl⟩ : ∃ k1, k = (f.length + 2 + k1) + 1 := ⟨k - (f.length + 3), by omega⟩
    have : ((f :: fs).flatMap fun f => d ++ quoted f) ++ Eol fl =
        d ++ (quoted f ++ ((fs.flatMap fun f => d ++ quoted f) ++ Eol fl)) := by simp
    rw [this, countDelimsAux_delim d h1, countDelimsAux_field d h1 h2 f _ k1 (hq f (by simp)),
      ih k1 (fun g hg => hq g (by simp [hg]))
        (by simp only [List.length_append]; omega)]
    simp; omega

/-- A record whose fields have even quote runs holds one delimiter less than
fields outside quoted content. -/
theorem countDelims_specRecord (d : List Nat) (hd : delimiterOk d) (fl : Flags)
    (fs : List (List Nat)) (hq : ∀ f ∈ fs, quoteRunsEven f = true) :
    countDelims d (specRecord d (Eol fl) fs) = fs.length - 1 := by
  unfold countDelims specRecord
  cases fs with
  | nil => simpa [List.intercalate] using countDelimsAux_eol d hd fl _
  | cons f fs =>
    have hd2 := hd
    obtain ⟨h1, h2, _, _⟩ := hd2
    have e : List.intercalate d ((f :: fs).map quoted) ++ Eol fl =
        quoted f ++ ((fs.flatMap fun g => d ++ quoted g) ++ Eol fl) := by
      rw [List.map_cons, intercalate_cons, List.flatMap_map, List.append_assoc]
    rw [e]
    have hlen : (quoted f ++ ((fs.flatMap fun g => d ++ quoted g) ++ Eol fl)).length =
        f.length + 2 + ((fs.flatMap fun g => d ++ quoted g) ++ Eol fl).length := by
      simp only [List.length_append, quoted_length]
    rw [hlen, countDelimsAux_field d h1 h2 f _ _ (hq f (by simp)),
      countDelimsAux_fields d hd fl fs _ (fun g hg => hq g (by simp [hg])) (le_refl _)]
    simp

/-! ## The fields of the records -/

theorem quoteRunsEven_of_not_mem (s : List Nat) (h : quote ∉ s) : quoteRunsEven s = true := by
  unfold quoteRunsEven
  induction s with
  | nil => rfl
  | cons a s ih =>
    have ha : a ≠ quote := fun e => h (by simp [e])
    have hs : quote ∉ s := fun e => h (by simp [e])
    simp [quoteRunsEvenAux, ha, ih hs]

theorem ite_toNat_ne (c : Prop) [Decidable c] (a b : Char) (ha : a.toNat ≠ quote)
    (hb : b.toNat ≠ quote) : (if c then a else b).toNat ≠ quote := by
  split_ifs <;> assumption

theorem digitChar_ne_quote (x : Nat) : (Nat.digitChar x).toNat ≠ quote := by
  unfold Nat.digitChar
  iterate 16 apply ite_toNat_ne _ _ _ (by decide)
  decide

theorem toDigitsCore_ne_quote :
    ∀ (fuel n : Nat) (ds : List Char), (∀ c ∈ ds, c.toNat ≠ quote) →
      ∀ c ∈ Nat.toDigitsCore 10 fuel n ds, c.toNat ≠ quote := by
  intro fuel
  induction fuel with
  | zero => intro n ds h c hc; exact h c (by simpa [Nat.toDigitsCore] using hc)
  | succ k ih =>
    intro n ds h c hc
    have hds : ∀ c ∈ Nat.digitChar (n % 10) :: ds, c.toNat ≠ quote := by
      intro c hc
      rcases List.mem_cons.mp hc with rfl | hc
      · exact digitChar_ne_quote _
      · exact h c hc
    simp only [Nat.toDigitsCore] at hc
    split_ifs at hc
    · exact hds c hc
    · exact ih _ _ hds c hc

theorem decimal_no_quote (n : Nat) : quote ∉ decimal n := by
  unfold decimal Nat.toDigits
  intro h
  obtain ⟨c, hc, e⟩ := List.mem_map.mp h
  exact toDigitsCore_ne_quote _ _ [] (by simp) c hc e

theorem headerFields_no_quote (types : List ColumnType) (hn : ∀ t ∈ types, quote ∉ t.Name) :
    ∀ f ∈ headerFields types, quoteRunsEven f = true := by
  intro f hf
  unfold headerFields at hf
  obtain ⟨p, hp, e⟩ := List.mem_map.mp hf
  apply quoteRunsEven_of_not_mem
  rw [← e]
  split_ifs
  · intro h
    rcases List.mem_append.mp h with h | h
    · revert h; decide
    · exact decimal_no_quote _ h
  · exact hn p.2 (List.snd_mem_of_mem_enumFrom hp)

theorem dataFields_quoteRunsEven (pr : Nat → Bool) (vs : List (Option (List Nat))) :
    ∀ f ∈ dataFields pr vs, quoteRunsEven f = true := by
  intro f hf
  unfold dataFields at hf
  obtain ⟨v, _, e⟩ := List.mem_map.mp hf
  rw [← e]
  cases v with
  | none => rfl
  | some c => exact san_quoteRunsEven pr c

theorem dataFields_length (pr : Nat → Bool) (vs : List (Option (List Nat))) :
    (dataFields pr vs).length = vs.length := by
  simp [dataFields]

theorem headerFields_length (types : List ColumnType) :
    (headerFields types).length = types.length := by
  simp [headerFields, List.enum]

theorem specOutput_eq_records (pr : Nat → Bool) (fl : Flags) (types : List ColumnType)
    (rows : List (List (Option (List Nat)))) :
    specOutput pr fl types rows = (headerRecords fl types ++ dataRecords pr fl rows).flatten := by
  unfold specOutput headerRecords dataRecords
  split_ifs <;> simp

theorem eol_suffix_specRecord (d e : List Nat) (fs : List (List Nat)) :
    e <:+ specRecord d e fs :=
  List.suffix_append _ _

/-! ## Splitting a record -/

theorem readQuoted_content (tail : List Nat) (ht : tail.head? ≠ some quote) :
    ∀ (c : List Nat) (odd : Bool), quoteRunsEvenAux odd c = true →
      readQuoted odd (c ++ quote :: tail) = some ((if odd then [quote] else []) ++ c, tail) := by
  intro c
  induction c with
  | nil =>
    intro odd h
    have ho : odd = false := by simpa [quoteRunsEvenAux] using h
    subst ho
    cases tail with
    | nil => simp [readQuoted]
    | cons t ts =>
      have : t ≠ quote := by
        intro e; subst e; exact ht rfl
      simp [readQuoted, this]
  | cons a c ih =>
    intro odd h
    by_cases ha : a = quote
    · subst ha
      simp only [quoteRunsEvenAux, if_true] at h
      have := ih (!odd) h
      cases odd
      · simpa [readQuoted] using this
      · simp only [Bool.not_true] at this
        simp [readQuoted, this]
    · simp only [quoteRunsEvenAux, ha, if_false, Bool.and_eq_true, Bool.not_eq_true'] at h
      obtain ⟨ho, h⟩ := h
      subst ho
      have := ih false h
      simp only [Bool.false_eq_true, if_false, List.nil_append] at this
      simp [readQuoted, ha, this]

theorem eol_head (fl : Flags) : (Eol fl).head? ≠ some quote := by
  unfold Eol; split_ifs <;> decide

theorem eol_no_quote (fl : Flags) : quote ∉ Eol fl := by
  unfold Eol; split_ifs <;> decide

theorem splitRecordAux_cons (d e : List Nat) (fuel c : Nat) (rest : List Nat) :
    splitRecordAux d e (fuel + 1) (c :: rest) =
      if c ≠ quote then none
      else
        match readQuoted false rest with
        | none => none
        | some (f, r) =>
          if r = e then some [f]
          else if d.isPrefixOf r then
            (splitRecordAux d e fuel (r.drop d.length)).map fun fs => f :: fs
          else none := rfl

/-- Splitting what the field loop wrote gives the fields back. -/
theorem splitRecordAux_fields (d : List Nat) (h1 : d ≠ []) (h2 : quote ∉ d) (fl : Flags) :
    ∀ (fs : List (List Nat)) (f : List Nat) (fuel : Nat), fs.length + 1 ≤ fuel →
      (∀ g ∈ f :: fs, quoteRunsEven g = true) →
      splitRecordAux d (Eol fl) fuel
          (quoted f ++ ((fs.flatMap fun g => d ++ quoted g) ++ Eol fl)) =
        some (f :: fs) := by
  intro fs
  induction fs with
  | nil =>
    intro f fuel hf hq
    obtain ⟨k, rfl⟩ : ∃ k, fuel = k + 1 := ⟨fuel - 1, by simp at hf; omega⟩
    have e : quoted f ++ (([] : List (List Nat)).flatMap (fun g => d ++ quoted g) ++ Eol fl) =
        quote :: (f ++ quote :: Eol fl) := by simp [quoted]
    rw [e, splitRecordAux_cons,
      readQuoted_content (Eol fl) (eol_head fl) f false (hq f (by simp))]
    simp
  | cons g fs ih =>
    intro f fuel hf hq
    obtain ⟨k, rfl⟩ : ∃ k, fuel = k + 1 := ⟨fuel - 1, by simp at hf; omega⟩
    have hk : fs.length + 1 ≤ k := by simp at hf; omega
    obtain ⟨x, xs, rfl⟩ : ∃ x xs, d = x :: xs := by
      cases d with
      | nil => exact absurd rfl h1
      | cons x xs => exact ⟨x, xs, rfl⟩
    have hx : x ≠ quote := fun e => h2 (by simp [e])
    let tail := (x :: xs) ++ (quoted g ++ ((fs.flatMap fun g => (x :: xs) ++ quoted g) ++ Eol fl))
    have e : quoted f ++ (((g :: fs).flatMap fun g => (x :: xs) ++ quoted g) ++ Eol fl) =
        quote :: (f ++ quote :: tail) := by simp [quoted, tail]
    have ht : tail.head? ≠ some quote := by
      simp only [tail, List.cons_append, List.head?_cons, ne_eq, Option.some.injEq]
      exact hx
    have hne : tail ≠ Eol fl := by
      intro h
      have hm : quote ∈ tail := by simp [tail, quoted]
      rw [h] at hm
      exact eol_no_quote fl hm
    have hp : (x :: xs).isPrefixOf tail = true := by
      rw [List.isPrefixOf_iff_prefix]
      exact List.prefix_append _ _
    have hdrop : tail.drop (x :: xs).length =
        quoted g ++ ((fs.flatMap fun g => (x :: xs) ++ quoted g) ++ Eol fl) :=
      List.drop_left _ _
    rw [e, splitRecordAux_cons, readQuoted_content tail ht f false (hq f (by simp))]
    simp only [ne_eq, not_true_eq_false, if_false, Bool.false_eq_true, List.nil_append, hne, hp,
      if_true, hdrop]
    rw [ih g k hk (fun y hy => hq y (by simp only [List.mem_cons] at hy ⊢; tauto))]
    rfl

theorem splitRecord_specRecord (d : List Nat) (h1 : d ≠ []) (h2 : quote ∉ d) (fl : Flags)
    (fs : List (List Nat)) (hn : fs ≠ []) (hq : ∀ g ∈ fs, quoteRunsEven g = true) :
    splitRecord d (Eol fl) (specRecord d (Eol fl) fs) = some fs := by
  cases fs with
  | nil => exact absurd rfl hn
  | cons f fs =>
    have e : specRecord d (Eol fl) (f :: fs) =
        quoted f ++ ((fs.flatMap fun g => d ++ quoted g) ++ Eol fl) := by
      unfold specRecord
      rw [List.map_cons, intercalate_cons, List.flatMap_map, List.append_assoc]
    unfold splitRecord
    rw [e]
    apply splitRecordAux_fields d h1 h2 fl fs f _ _ hq
    have h3 : fs.length ≤ (fs.flatMap fun g => d ++ quoted g).length := by
      clear e hq hn
      induction fs with
      | nil => simp
      | cons a fs ih =>
        simp only [List.flatMap_cons, List.length_append, List.length_cons, quoted_length]
        omega
    simp only [List.length_append, quoted_length]
    omega

/-! ## Un-doubling -/

theorem unDouble_aux :
    ∀ (n : Nat) (f : List Nat), f.length ≤ n → quoteRunsEvenAux false f = true →
      (replaceAux [quote, quote] [quote] n f).flatMap
          (fun b => if b = quote then [quote, quote] else [b]) = f := by
  intro n
  induction n using Nat.strong_induction_on with
  | _ n ih =>
    intro f hl hq
    cases n with
    | zero =>
      have : f = [] := List.length_eq_zero.mp (by omega)
      subst this; rfl
    | succ k =>
      cases f with
      | nil => rfl
      | cons a f =>
        simp only [List.length_cons] at hl
        by_cases ha : a = quote
        · subst ha
          simp only [quoteRunsEvenAux, if_true, Bool.not_false] at hq
          cases f with
          | nil => simp [quoteRunsEvenAux] at hq
          | cons b f =>
            by_cases hb : b = quote
            · subst hb
              simp only [quoteRunsEvenAux, if_true, Bool.not_true] at hq
              simp only [List.length_cons] at hl
              rw [replaceAux_cons, if_pos (by simp [List.isPrefixOf_cons₂])]
              have hd : List.drop [quote, quote].length (quote :: quote :: f) = f := rfl
              rw [hd]
              cases k with
              | zero => omega
              | succ m =>
                have h1 := ih m (by omega) f (by omega) hq
                have h2 := replaceAux_fuel [quote, quote] [quote] (by simp) (m + 1) m f
                  (by omega) (by omega)
                rw [h2]
                simp [h1]
            · simp [quoteRunsEvenAux, hb] at hq
        · simp only [quoteRunsEvenAux, ha, if_false, Bool.not_false, Bool.true_and] at hq
          have hne : (quote == a) = false := by
            simp only [beq_eq_false_iff_ne, ne_eq]; exact fun e => ha e.symm
          rw [replaceAux_cons, if_neg (by simp [List.isPrefixOf_cons₂, hne])]
          simp [ha, ih k (by omega) f (by omega) hq]

/-- Doubling the quotes of an un-doubled text with even quote runs gives the
text back. -/
theorem double_unDouble (f : List Nat) (hq : quoteRunsEven f = true) :
    ReplaceAll (unDouble f) [quote] [quote, quote] = f := by
  rw [ReplaceAll_single]
  unfold unDouble ReplaceAll
  simp only [List.cons_ne_nil, if_false]
  exact unDouble_aux _ f (le_refl _) hq

/-! ## The model against the words of the specification -/

theorem digitChar_toNat (n : Nat) (h : n < 10) : (Nat.digitChar n).toNat = 0x30 + n := by
  interval_cases n <;> rfl

theorem toDigitsCore_eq :
    ∀ (fuel n : Nat) (ds : List Char),
      (Nat.toDigitsCore 10 fuel n ds).map Char.toNat =
        expectedDecimalAux fuel n ++ ds.map Char.toNat := by
  intro fuel
  induction fuel with
  | zero => intro n ds; simp [Nat.toDigitsCore, expectedDecimalAux]
  | succ k ih =>
    intro n ds
    by_cases hn : n < 10
    · have h1 : n / 10 = 0 := Nat.div_eq_of_lt hn
      have h2 : n % 10 = n := Nat.mod_eq_of_lt hn
      simp [Nat.toDigitsCore, expectedDecimalAux, hn, h1, h2, digitChar_toNat n hn]
    · have h1 : ¬ n / 10 = 0 := by omega
      have h2 : n % 10 < 10 := Nat.mod_lt _ (by decide)
      simp [Nat.toDigitsCore, expectedDecimalAux, hn, h1, ih, digitChar_toNat _ h2]

/-- The `%v` of `Run` writes the decimal numeral. -/
theorem decimal_eq (n : Nat) : decimal n = expectedDecimal n := by
  unfold decimal expectedDecimal Nat.toDigits
  rw [toDigitsCore_eq]
  simp

theorem decimalValue_append (s : List Nat) (c : Nat) :
    decimalValue (s ++ [c]) = decimalValue s * 10 + (c - 0x30) := by
  simp [decimalValue]

theorem expectedDecimalAux_value :
    ∀ (fuel n : Nat), n < fuel → decimalValue (expectedDecimalAux fuel n) = n := by
  intro fuel
  induction fuel with
  | zero => intro n h; omega
  | succ k ih =>
    intro n h
    by_cases hn : n < 10
    · simp [expectedDecimalAux, hn, decimalValue]
    · simp only [expectedDecimalAux, hn, if_false]
      rw [decimalValue_append, ih (n / 10) (by omega)]
      omega

/-- The numeral `expectedDecimal n` stands for `n`. -/
theorem expectedDecimal_value (n : Nat) : decimalValue (expectedDecimal n) = n :=
  expectedDecimalAux_value (n + 1) n (by omega)

theorem columnName_eq (i : Nat) (t : ColumnType) :
    columnName i t =
      if t.Name = [] then [0x63, 0x6F, 0x6C, 0x75, 0x6D, 0x6E, 0x5F] ++ expectedDecimal (i + 1)
      else t.Name := by
  unfold columnName
  rw [decimal_eq]
  rfl

theorem quoted_eq_wrapQuotes : quoted = wrapQuotes := rfl

theorem headerFields_eq_expected (types : List ColumnType) :
    headerFields types = expectedHeaderFields (types.map fun t => t.Name) := by
  unfold headerFields expectedHeaderFields
  rw [List.enum_map, List.map_map]
  apply List.map_congr_left
  intro p _
  have := columnName_eq p.1 p.2
  unfold columnName at this
  simpa using this

theorem specOutput_eq_expected (pr : Nat → Bool) (fl : Flags) (types : List ColumnType)
    (rows : List (List (Option (List Nat)))) :
    specOutput pr fl types rows =
      expectedOutput pr fl.Delimiter (if fl.Lf then [0x0A] else [0x0D, 0x0A]) fl.Headers
        (types.map fun t => t.Name) rows := by
  unfold specOutput expectedOutput specRecord expectedRecord
  rw [headerFields_eq_expected, quoted_eq_wrapQuotes]
  rfl

/-! ## The claims -/

/-- C1: for every byte sequence `x`, `san x` holds no control character and
no `U+00A0` (among its runes, and no raw control byte among its bytes), and
every maximal run of double quotes in it has even length. -/
theorem san_clean_and_quotes_paired (pr : Nat → Bool) (x : List Nat) :
    (∀ r ∈ runes (san pr x), IsControl r = false ∧ r ≠ 0xA0) ∧
      (∀ b ∈ san pr x, 0x20 ≤ b ∧ b ≠ 0x7F) ∧
      quoteRunsEven (san pr x) = true := by
  obtain ⟨_, h2, h3⟩ := runes_san pr x
  refine ⟨?_, ?_, san_quoteRunsEven pr x⟩
  · intro r hr
    obtain ⟨_, g, n⟩ := h3 r hr
    exact ⟨isControl_of_isGraphic pr r g, n⟩
  · intro b hb
    by_cases hlt : b < 0x80
    · rw [h2] at hb
      have hr := mem_encodeAll_ascii _ b hlt hb
      obtain ⟨_, g, _⟩ := h3 b hr
      have hc := isControl_of_isGraphic pr b g
      simp only [IsControl, Bool.or_eq_false_iff, decide_eq_false_iff_not, Bool.and_eq_false_imp,
        decide_eq_true_eq] at hc
      omega
    · omega

/-- C10: for every byte sequence `x`, ill-formed or not, `san x` is
well-formed UTF-8: `utf8.Valid` accepts it and it is the encoding of a
sequence of Unicode scalar values. -/
theorem san_wellFormed (pr : Nat → Bool) (x : List Nat) :
    Valid (san pr x) = true ∧ ∃ rs, (∀ r ∈ rs, validScalar r) ∧ san pr x = encodeAll rs := by
  obtain ⟨_, h2, h3⟩ := runes_san pr x
  have hs : ∀ r ∈ runes (san pr x), validScalar r := fun r hr => (h3 r hr).1
  refine ⟨?_, runes (san pr x), hs, h2⟩
  rw [h2]
  exact Valid_encodeAll _ hs

/-- C6: for every well-formed input `x` whose runes are all printable and
that holds no double quote, `san (san x) = san x`; on such input `san` is the
trimming of spaces. -/
theorem san_idempotent_printable (pr : Nat → Bool) (x : List Nat) (hv : Valid x = true)
    (hp : ∀ r ∈ runes x, IsPrint pr r = true) (hq : quote ∉ x) :
    san pr (san pr x) = san pr x ∧ san pr x = Trim x space :=
  ⟨san_idem pr x hq, san_printable pr x hv hp hq⟩

/-- Witness of C6 on the input ` Hi there ` (with a space at both ends). -/
theorem san_idempotent_printable_witness :
    Valid [0x20, 0x48, 0x69, 0x20, 0x74, 0x68, 0x65, 0x72, 0x65, 0x20] = true ∧
      (∀ r ∈ runes [0x20, 0x48, 0x69, 0x20, 0x74, 0x68, 0x65, 0x72, 0x65, 0x20],
        IsPrint latin1Tables r = true) ∧
      quote ∉ [0x20, 0x48, 0x69, 0x20, 0x74, 0x68, 0x65, 0x72, 0x65, 0x20] ∧
      (san latin1Tables
          (san latin1Tables [0x20, 0x48, 0x69, 0x20, 0x74, 0x68, 0x65, 0x72, 0x65, 0x20]) =
          san latin1Tables [0x20, 0x48, 0x69, 0x20, 0x74, 0x68, 0x65, 0x72, 0x65, 0x20] ∧
        san latin1Tables [0x20, 0x48, 0x69, 0x20, 0x74, 0x68, 0x65, 0x72, 0x65, 0x20] =
          Trim [0x20, 0x48, 0x69, 0x20, 0x74, 0x68, 0x65, 0x72, 0x65, 0x20] space) ∧
      Trim [0x20, 0x48, 0x69, 0x20, 0x74, 0x68, 0x65, 0x72, 0x65, 0x20] space =
        [0x48, 0x69, 0x20, 0x74, 0x68, 0x65, 0x72, 0x65] :=
  ⟨by decide, by decide, by decide,
    san_idempotent_printable latin1Tables
      [0x20, 0x48, 0x69, 0x20, 0x74, 0x68, 0x65, 0x72, 0x65, 0x20] (by decide) (by decide)
      (by decide),
    by decide⟩

/-- C7, as stated, fails: the em space `U+2003` and the narrow no-break space
`U+202F` are graphic (table `Zs`), so `san` returns them unchanged, and both
are white space other than `U+0020`. -/
theorem san_keeps_unicode_spaces :
    (∀ pr, san pr [0xE2, 0x80, 0x83] = [0xE2, 0x80, 0x83]) ∧
      runes [0xE2, 0x80, 0x83] = [0x2003] ∧ IsSpace 0x2003 = true ∧ 0x2003 ≠ space ∧
      (∀ pr, san pr [0xE2, 0x80, 0xAF] = [0xE2, 0x80, 0xAF]) ∧
      runes [0xE2, 0x80, 0xAF] = [0x202F] ∧ IsSpace 0x202F = true ∧ 0x202F ≠ space := by
  have e : ∀ (pr : Nat → Bool) (b : Nat), b = 0x83 ∨ b = 0xAF →
      san pr [0xE2, 0x80, b] = [0xE2, 0x80, b] := by
    intro pr b hb
    rcases hb with rfl | rfl <;>
    simp [san, ToValidUTF8, toValidAux, DecodeRune, leadInfo, RuneSelf, isCont, Map, mapAux,
      sanMapping, IsGraphic, Zs, EncodeRune, ReplaceAll, replaceAux, Trim, trimLeftByte,
      trimRightByte, quote, space, MaxRune]
  exact ⟨fun pr => e pr _ (Or.inl rfl), by decide, by decide, by decide,
    fun pr => e pr _ (Or.inr rfl), by decide, by decide, by decide⟩

/-- C7, amended: the runes of `san x` are those of the validated input, each
graphic rune other than `U+00A0` and the double quote kept, each double quote
doubled, every other rune (control characters, tab, newline, carriage return,
`U+00A0`) replaced by one `U+0020`, and the spaces at both ends trimmed.  So
every rune of the output is graphic, is no control character and is not
`U+00A0`, and a white space in the output is `U+0020` or lies above Latin-1. -/
theorem san_runes_graphic (pr : Nat → Bool) (x : List Nat) :
    runes (san pr x) = sanRunes pr (runes (ToValidUTF8 x [])) ∧
      ∀ r ∈ runes (san pr x), IsGraphic pr r = true ∧ IsControl r = false ∧ r ≠ 0xA0 ∧
        (IsSpace r = true → r = space ∨ 0xFF < r) := by
  obtain ⟨h1, _, h3⟩ := runes_san pr x
  refine ⟨h1, ?_⟩
  intro r hr
  obtain ⟨_, g, n⟩ := h3 r hr
  have hc := isControl_of_isGraphic pr r g
  refine ⟨g, hc, n, ?_⟩
  intro hsp
  by_cases hle : r ≤ 0xFF
  · left
    simp only [IsControl, Bool.or_eq_false_iff, decide_eq_false_iff_not, Bool.and_eq_false_imp,
      decide_eq_true_eq] at hc
    simp only [IsSpace, hle, if_true, Bool.or_eq_true, decide_eq_true_eq] at hsp
    unfold space
    omega
  · right; omega

/-- C2: for every delimiter, end of line (CRLF unless `--lf`, then LF) and
header flag, every column list without BINARY column and every list of rows
with one cell per column, the export into a file that accepts the writes ends
normally and the bytes written are the header record (if asked for) followed
by one record per row in cursor order, as `expectedOutput` spells them out:
fields wrapped in double quotes and joined by the delimiter, header fields
the column names with `column_<i+1>` for an empty one, data fields `san` of
the cell and empty for NULL. -/
theorem export_output (pr : Nat → Bool) (fl : Flags) (types : List ColumnType)
    (rows : List (List (Option (List Nat))))
    (hb : ∀ t ∈ types, t.DatabaseTypeName ≠ [0x42, 0x49, 0x4E, 0x41, 0x52, 0x59])
    (hl : ∀ vs ∈ rows, vs.length = types.length) :
    ∃ w, Execute pr fl none (.rows types (rows.map Row.values)) =
        .done { Csv := w, nextCalls := rows.length + 1, scanCalls := rows.length,
                counter := rows.length } ∧
      w.buf = [] ∧
      w.wr.data =
        expectedOutput pr fl.Delimiter (if fl.Lf then [0x0A] else [0x0D, 0x0A]) fl.Headers
          (types.map fun t => t.Name) rows := by
  obtain ⟨w, e, _, b, d⟩ := Execute_rows pr fl types rows hb hl
  exact ⟨w, e, b, by rw [d, specOutput_eq_expected]⟩

/-- Witness of C2: the scenario of the specification, and a run with `--lf`,
the delimiter `;` and ten columns of which those of ordinal 1 and 9 have no
name. -/
theorem export_output_witness :
    ((∀ t ∈ exampleTypes, t.DatabaseTypeName ≠ [0x42, 0x49, 0x4E, 0x41, 0x52, 0x59]) ∧
      (∀ vs ∈ exampleRows, vs.length = exampleTypes.length) ∧
      (∃ w, Execute latin1Tables exampleFlags none
          (.rows exampleTypes (exampleRows.map Row.values)) =
            .done { Csv := w, nextCalls := exampleRows.length + 1,
                    scanCalls := exampleRows.length, counter := exampleRows.length } ∧
          w.buf = [] ∧
          w.wr.data =
            expectedOutput latin1Tables exampleFlags.Delimiter
              (if exampleFlags.Lf then [0x0A] else [0x0D, 0x0A]) exampleFlags.Headers
              (exampleTypes.map fun t => t.Name) exampleRows) ∧
      expectedOutput latin1Tables exampleFlags.Delimiter
          (if exampleFlags.Lf then [0x0A] else [0x0D, 0x0A]) exampleFlags.Headers
          (exampleTypes.map fun t => t.Name) exampleRows = exampleOutput ∧
      (Execute latin1Tables exampleFlags none
        (.rows exampleTypes (exampleRows.map Row.values))).state.Csv.wr.data = exampleOutput) ∧
    ((∀ t ∈ wideTypes, t.DatabaseTypeName ≠ [0x42, 0x49, 0x4E, 0x41, 0x52, 0x59]) ∧
      (∀ vs ∈ wideRows, vs.length = wideTypes.length) ∧
      (∃ w, Execute latin1Tables lfFlags none (.rows wideTypes (wideRows.map Row.values)) =
            .done { Csv := w, nextCalls := wideRows.length + 1,
                    scanCalls := wideRows.length, counter := wideRows.length } ∧
          w.buf = [] ∧
          w.wr.data =
            expectedOutput latin1Tables lfFlags.Delimiter
              (if lfFlags.Lf then [0x0A] else [0x0D, 0x0A]) lfFlags.Headers
              (wideTypes.map fun t => t.Name) wideRows) ∧
      expectedOutput latin1Tables lfFlags.Delimiter
          (if lfFlags.Lf then [0x0A] else [0x0D, 0x0A]) lfFlags.Headers
          (wideTypes.map fun t => t.Name) wideRows = wideOutput ∧
      (Execute latin1Tables lfFlags none
        (.rows wideTypes (wideRows.map Row.values))).state.Csv.wr.data = wideOutput) :=
  ⟨⟨by decide, by decide,
      export_output latin1Tables exampleFlags exampleTypes exampleRows (by decide) (by decide),
      by decide, by decide⟩,
    ⟨by decide, by decide,
      export_output latin1Tables lfFlags wideTypes wideRows (by decide) (by decide),
      by decide, by decide⟩⟩

/-- C3: when some column reports the database type name BINARY, whatever the
other columns, the rows and the file, the export ends in `log.Fatal` inside
the column loop: `rows.Next` and `rows.Scan` are never called, the row
counter is 0 and the state is the one the column loop left, so no data
record is written.  Over a file that accepts the writes the fatal error is
the one of the BINARY check. -/
theorem binary_column_aborts (pr : Nat → Bool) (fl : Flags) (room : Option Nat)
    (types : List ColumnType) (rows : List Row)
    (h : ∃ t ∈ types, t.DatabaseTypeName = BINARY) :
    ∃ e st, Execute pr fl room (.rows types rows) = .fatal e st ∧
      columnLoop fl 0 types (initialState room) = .fatal e st ∧
      (e.isHeaderWrite = true ∨ e.isBinaryType = true) ∧
      (room = none → e.isBinaryType = true) ∧
      st.nextCalls = 0 ∧ st.scanCalls = 0 ∧ st.counter = 0 := by
  obtain ⟨e, st, e1, c1, k1⟩ := columnLoop_binary fl types 0 (initialState room) h
  have hc : st.nextCalls = 0 ∧ st.scanCalls = 0 ∧ st.counter = 0 := by
    have : (st.nextCalls, st.scanCalls, st.counter) = (0, 0, 0) := c1
    simpa using this
  refine ⟨e, st, ?_, e1, k1, ?_, hc⟩
  · unfold Execute
    rw [Run_rows, e1, andThen_fatal, andThen_fatal]
  · intro hr
    subst hr
    obtain ⟨name, st1, e2, _, _, _⟩ :=
      columnLoop_binary_good fl types 0 (initialState none) initialState_good h
    rw [e1] at e2
    injection e2 with he _
    rw [he]
    rfl

/-- Witness of C3: columns `(id, <unnamed> BINARY)` with the header on. -/
theorem binary_column_aborts_witness :
    (∃ t ∈ [(⟨ascii "id", ascii "INT", .int64⟩ : ColumnType), ⟨[], BINARY, .slice⟩],
        t.DatabaseTypeName = BINARY) ∧
      ∃ e st, Execute latin1Tables exampleFlags none
          (.rows [⟨ascii "id", ascii "INT", .int64⟩, ⟨[], BINARY, .slice⟩]
            (exampleRows.map Row.values)) = .fatal e st ∧
        columnLoop exampleFlags 0 [⟨ascii "id", ascii "INT", .int64⟩, ⟨[], BINARY, .slice⟩]
          (initialState none) = .fatal e st ∧
        (e.isHeaderWrite = true ∨ e.isBinaryType = true) ∧
        ((none : Option Nat) = none → e.isBinaryType = true) ∧
        st.nextCalls = 0 ∧ st.scanCalls = 0 ∧ st.counter = 0 :=
  ⟨⟨⟨[], BINARY, .slice⟩, by decide, rfl⟩,
    binary_column_aborts latin1Tables exampleFlags none
      [⟨ascii "id", ascii "INT", .int64⟩, ⟨[], BINARY, .slice⟩] (exampleRows.map Row.values)
      ⟨⟨[], BINARY, .slice⟩, by decide, rfl⟩⟩

/-- C8, as stated, fails: the scan kind of a column is never consulted and
only the type name BINARY is compared.  A UNIQUEIDENTIFIER column and a
VARBINARY column, both scanned as byte slices, are not rejected; their rows
are exported. -/
theorem binary_scan_kind_exported :
    Execute latin1Tables ⟨ascii ",", false, false⟩ none
        (.rows [⟨ascii "guid", ascii "UNIQUEIDENTIFIER", .slice⟩]
          [.values [some [0x41, 0x00, 0xFF]]]) =
      .done { Csv := { wr := { data := [0x22, 0x41, 0x22, 0x0D, 0x0A], room := none }, buf := [],
                       size := 10 * 1024 * 1024, err := false },
              nextCalls := 2, scanCalls := 1, counter := 1 } ∧
    Execute latin1Tables ⟨ascii ",", false, false⟩ none
        (.rows [⟨ascii "data", ascii "VARBINARY", .slice⟩] [.values [some [0x41, 0x00, 0xFF]]]) =
      .done { Csv := { wr := { data := [0x22, 0x41, 0x22, 0x0D, 0x0A], room := none }, buf := [],
                       size := 10 * 1024 * 1024, err := false },
              nextCalls := 2, scanCalls := 1, counter := 1 } := by
  decide

/-- C8, amended: when some column has the database type name BINARY, whatever
the scan kinds of the columns, the export into a file that accepts the writes
ends in the fatal error of the BINARY check before any row is read; the error
names the first BINARY column, by its name or, when that is empty, by
`column_<j+1>` for its ordinal `j`. -/
theorem binary_type_name_rejected (pr : Nat → Bool) (fl : Flags) (types : List ColumnType)
    (rows : List Row)
    (h : ∃ t ∈ types, t.DatabaseTypeName = [0x42, 0x49, 0x4E, 0x41, 0x52, 0x59]) :
    ∃ name st, Execute pr fl none (.rows types rows) = .fatal (.binaryType name) st ∧
      (∃ j t, types[j]? = some t ∧ t.DatabaseTypeName = [0x42, 0x49, 0x4E, 0x41, 0x52, 0x59] ∧
        (∀ k u, k < j → types[k]? = some u →
          u.DatabaseTypeName ≠ [0x42, 0x49, 0x4E, 0x41, 0x52, 0x59]) ∧
        name = if t.Name = [] then
            [0x63, 0x6F, 0x6C, 0x75, 0x6D, 0x6E, 0x5F] ++ expectedDecimal (j + 1)
          else t.Name) ∧
      st.nextCalls = 0 ∧ st.scanCalls = 0 ∧ st.counter = 0 := by
  rcases Run_rows_any pr fl types rows (initialState none) initialState_good with
    ⟨_, name, st1, e1, c1, _, j, t, h1, h2, h3, h4⟩ | ⟨hb, _⟩
  · refine ⟨name, st1, by unfold Execute; rw [e1], ⟨j, t, h1, h2, h3, ?_⟩, ?_⟩
    · rw [h4, columnName_eq]
    · have : (st1.nextCalls, st1.scanCalls, st1.counter) = (0, 0, 0) := c1
      simpa using this
  · obtain ⟨t, ht, hbin⟩ := h
    exact absurd hbin (hb t ht)

/-- Witness of C8: after eleven columns of type INT an unnamed BINARY column
whose scan kind is `string`, then a second BINARY column; the error names
`column_12`. -/
theorem binary_type_name_rejected_witness :
    (∃ t ∈ binaryExampleTypes, t.DatabaseTypeName = [0x42, 0x49, 0x4E, 0x41, 0x52, 0x59]) ∧
      (∃ name st, Execute latin1Tables exampleFlags none
          (.rows binaryExampleTypes []) = .fatal (.binaryType name) st ∧
        (∃ j t, binaryExampleTypes[j]? = some t ∧
          t.DatabaseTypeName = [0x42, 0x49, 0x4E, 0x41, 0x52, 0x59] ∧
          (∀ k u, k < j → binaryExampleTypes[k]? = some u →
            u.DatabaseTypeName ≠ [0x42, 0x49, 0x4E, 0x41, 0x52, 0x59]) ∧
          name = if t.Name = [] then
              [0x63, 0x6F, 0x6C, 0x75, 0x6D, 0x6E, 0x5F] ++ expectedDecimal (j + 1)
            else t.Name) ∧
        st.nextCalls = 0 ∧ st.scanCalls = 0 ∧ st.counter = 0) ∧
      (Execute latin1Tables ⟨[0x2C], false, false⟩ none (.rows binaryExampleTypes [])).state =
        initialState none ∧
      Execute latin1Tables ⟨[0x2C], false, false⟩ none (.rows binaryExampleTypes []) =
        .fatal (.binaryType [0x63, 0x6F, 0x6C, 0x75, 0x6D, 0x6E, 0x5F, 0x31, 0x32])
          (initialState none) :=
  ⟨⟨⟨[], BINARY, .string⟩, by decide, rfl⟩,
    binary_type_name_rejected latin1Tables exampleFlags binaryExampleTypes []
      ⟨⟨[], BINARY, .string⟩, by decide, rfl⟩,
    by decide, by decide⟩

/-- C9, as stated, fails: with the header on and a BINARY column, the header
field is in the buffer when `log.Fatal` exits; `PostRun` does not run, the
buffer is not flushed and the file stays empty. -/
theorem fatal_run_not_flushed :
    Execute latin1Tables exampleFlags none (.rows [⟨ascii "id", BINARY, .slice⟩] []) =
      .fatal (.binaryType (ascii "id"))
        { Csv := { wr := { data := [], room := none }, buf := [0x22, 0x69, 0x64, 0x22],
                   size := 10 * 1024 * 1024, err := false },
          nextCalls := 0, scanCalls := 0, counter := 0 } := by
  decide

/-- C9, amended: when `Run` returns, over a file that accepts the writes,
`PostRun` flushes the buffer before the command is complete: the buffer is
empty and the file holds every byte written during the run. -/
theorem flush_after_run (pr : Nat → Bool) (fl : Flags) (q : Query) (st : State)
    (h : Run pr fl q (initialState none) = .done st) :
    Execute pr fl none q = .done (PostRun st) ∧ (PostRun st).Csv.buf = [] ∧
      (PostRun st).Csv.wr.data = st.Csv.written := by
  have hg := Run_good pr fl q (initialState none) initialState_good
  rw [h] at hg
  obtain ⟨_, _, f3, f4, _⟩ := Flush_good st.Csv hg
  exact ⟨by unfold Execute; rw [h], f3, f4⟩

/-- Witness of C9: the scenario of the specification.  `Run` returns with
the whole output still in the buffer, and `PostRun` moves it to the file. -/
theorem flush_after_run_witness :
    Run latin1Tables exampleFlags (.rows exampleTypes (exampleRows.map Row.values))
        (initialState none) =
        .done { Csv := { wr := { data := [], room := none }, buf := exampleOutput,
                         size := 10 * 1024 * 1024, err := false },
                nextCalls := 3, scanCalls := 2, counter := 2 } ∧
      (Execute latin1Tables exampleFlags none
          (.rows exampleTypes (exampleRows.map Row.values)) =
          .done (PostRun { Csv := { wr := { data := [], room := none }, buf := exampleOutput,
                                    size := 10 * 1024 * 1024, err := false },
                           nextCalls := 3, scanCalls := 2, counter := 2 }) ∧
        (PostRun { Csv := { wr := { data := [], room := none }, buf := exampleOutput,
                            size := 10 * 1024 * 1024, err := false },
                   nextCalls := 3, scanCalls := 2, counter := 2 }).Csv.buf = [] ∧
        (PostRun { Csv := { wr := { data := [], room := none }, buf := exampleOutput,
                            size := 10 * 1024 * 1024, err := false },
                   nextCalls := 3, scanCalls := 2, counter := 2 }).Csv.wr.data =
          ({ wr := { data := [], room := none }, buf := exampleOutput,
             size := 10 * 1024 * 1024, err := false } : Writer).written) :=
  ⟨by decide,
    flush_after_run latin1Tables exampleFlags
      (.rows exampleTypes (exampleRows.map Row.values))
      { Csv := { wr := { data := [], room := none }, buf := exampleOutput,
                 size := 10 * 1024 * 1024, err := false },
        nextCalls := 3, scanCalls := 2, counter := 2 } (by decide)⟩

/-- C4, as stated, fails.  With an empty delimiter the cells `a`, `b` and the
single cell `a"b` give the same record, which splits into one field; with the
double quote as delimiter the record does not split at all; and with the
delimiter `,` the cell `B"ob` is recovered as `B""ob`, which is `san` of the
cell, while its un-doubling `B"ob` is not. -/
theorem roundtrip_fails :
    (rowLoop latin1Tables ⟨[], false, false⟩ 2 [.values [some [0x61], some [0x62]]]
        (initialState none)).state.Csv.written =
        [0x22, 0x61, 0x22, 0x22, 0x62, 0x22, 0x0D, 0x0A] ∧
      (rowLoop latin1Tables ⟨[], false, false⟩ 1 [.values [some [0x61, 0x22, 0x62]]]
        (initialState none)).state.Csv.written =
        [0x22, 0x61, 0x22, 0x22, 0x62, 0x22, 0x0D, 0x0A] ∧
      splitRecord [] [0x0D, 0x0A] [0x22, 0x61, 0x22, 0x22, 0x62, 0x22, 0x0D, 0x0A] =
        some [[0x61, 0x22, 0x22, 0x62]] ∧
      splitRecord [0x22] [0x0D, 0x0A]
        (rowLoop latin1Tables ⟨[0x22], false, false⟩ 2 [.values [some [0x61], some [0x62]]]
          (initialState none)).state.Csv.written = none ∧
      splitRecord [0x2C] [0x0D, 0x0A]
        (rowLoop latin1Tables ⟨[0x2C], false, false⟩ 1 [.values [some [0x42, 0x22, 0x6F, 0x62]]]
          (initialState none)).state.Csv.written = some [[0x42, 0x22, 0x22, 0x6F, 0x62]] ∧
      san latin1Tables [0x42, 0x22, 0x6F, 0x62] = [0x42, 0x22, 0x22, 0x6F, 0x62] ∧
      unDouble [0x42, 0x22, 0x22, 0x6F, 0x62] = [0x42, 0x22, 0x6F, 0x62] := by
  decide

/-- C4, amended: for every row of `N ≥ 1` cells and every delimiter that is
not empty and holds no double quote, the row loop writes one record, and
splitting it at the delimiters outside quotes gives back, in order, `san` of
each cell (the empty field for NULL), quotes still doubled; un-doubling such
a value loses nothing, doubling its quotes again gives the value back. -/
theorem row_roundtrip (pr : Nat → Bool) (fl : Flags) (vs : List (Option (List Nat)))
    (hN : 1 ≤ vs.length) (hd : fl.Delimiter ≠ [] ∧ quote ∉ fl.Delimiter) :
    ∃ st, rowLoop pr fl vs.length [.values vs] (initialState none) = .done st ∧
      splitRecord fl.Delimiter (Eol fl) st.Csv.written = some (dataFields pr vs) ∧
      ∀ f ∈ dataFields pr vs, ReplaceAll (unDouble f) [quote] [quote, quote] = f := by
  obtain ⟨w, e, _, x⟩ := rowLoop_good pr fl vs.length [vs] (initialState none)
    initialState_good (by simp)
  refine ⟨_, e, ?_, ?_⟩
  · have hw0 : (initialState none).Csv.written = [] := rfl
    simp only [hw0, List.map_cons, List.map_nil, List.flatten_cons, List.flatten_nil,
      List.append_nil, List.nil_append] at x
    simp only [x]
    apply splitRecord_specRecord _ hd.1 hd.2 fl
    · intro h
      have := dataFields_length pr vs
      rw [h] at this
      simp at this
      omega
    · exact dataFields_quoteRunsEven pr vs
  · intro f hf
    exact double_unDouble f (dataFields_quoteRunsEven pr vs f hf)

/-- Witness of C4: the row `(2, B"ob, NULL)` with the delimiter `,`. -/
theorem row_roundtrip_witness :
    1 ≤ [some (ascii "2"), some [0x42, 0x22, 0x6F, 0x62], none].length ∧
      (exampleFlags.Delimiter ≠ [] ∧ quote ∉ exampleFlags.Delimiter) ∧
      ∃ st, rowLoop latin1Tables exampleFlags 3
          [.values [some (ascii "2"), some [0x42, 0x22, 0x6F, 0x62], none]] (initialState none) =
            .done st ∧
        splitRecord exampleFlags.Delimiter (Eol exampleFlags) st.Csv.written =
          some (dataFields latin1Tables [some (ascii "2"), some [0x42, 0x22, 0x6F, 0x62], none]) ∧
        ∀ f ∈ dataFields latin1Tables [some (ascii "2"), some [0x42, 0x22, 0x6F, 0x62], none],
          ReplaceAll (unDouble f) [quote] [quote, quote] = f :=
  ⟨by decide, by decide,
    row_roundtrip latin1Tables exampleFlags
      [some (ascii "2"), some [0x42, 0x22, 0x6F, 0x62], none] (by decide) (by decide)⟩

/-- C5, as stated, fails.  With an empty delimiter the record of a row of two
columns holds no delimiter; with the line feed as delimiter and as end of
line it holds two; with the double quote as delimiter it holds five. -/
theorem delimiter_count_fails :
    ((Execute latin1Tables ⟨[], false, false⟩ none
          (.rows [⟨ascii "a", ascii "INT", .int64⟩, ⟨ascii "b", ascii "INT", .int64⟩]
            [.values [some [0x31], some [0x32]]])).state.Csv.wr.data =
        [0x22, 0x31, 0x22, 0x22, 0x32, 0x22, 0x0D, 0x0A] ∧
      countDelims [] [0x22, 0x31, 0x22, 0x22, 0x32, 0x22, 0x0D, 0x0A] = 0) ∧
    ((Execute latin1Tables ⟨[0x0A], true, false⟩ none
          (.rows [⟨ascii "a", ascii "INT", .int64⟩, ⟨ascii "b", ascii "INT", .int64⟩]
            [.values [some [0x31], some [0x32]]])).state.Csv.wr.data =
        [0x22, 0x31, 0x22, 0x0A, 0x22, 0x32, 0x22, 0x0A] ∧
      countDelims [0x0A] [0x22, 0x31, 0x22, 0x0A, 0x22, 0x32, 0x22, 0x0A] = 2) ∧
    ((Execute latin1Tables ⟨[0x22], false, false⟩ none
          (.rows [⟨ascii "a", ascii "INT", .int64⟩, ⟨ascii "b", ascii "INT", .int64⟩]
            [.values [some [0x31], some [0x32]]])).state.Csv.wr.data =
        [0x22, 0x31, 0x22, 0x22, 0x22, 0x32, 0x22, 0x0D, 0x0A] ∧
      countDelims [0x22] [0x22, 0x31, 0x22, 0x22, 0x22, 0x32, 0x22, 0x0D, 0x0A] = 5) := by
  decide

/-- C5, amended: for a delimiter that is not empty and holds no double quote,
carriage return or line feed, a column list without BINARY column and rows
with one cell per column, the output is the header record (if asked for)
followed by the data records; every data record ends with the end of line
and holds `columnCount - 1` delimiters outside quoted content, and so does
the header record when no column name holds a double quote. -/
theorem records_delimiters (pr : Nat → Bool) (fl : Flags) (types : List ColumnType)
    (rows : List (List (Option (List Nat))))
    (hd : delimiterOk fl.Delimiter)
    (hb : ∀ t ∈ types, t.DatabaseTypeName ≠ BINARY)
    (hl : ∀ vs ∈ rows, vs.length = types.length) :
    ∃ w, Execute pr fl none (.rows types (rows.map Row.values)) =
        .done { Csv := w, nextCalls := rows.length + 1, scanCalls := rows.length,
                counter := rows.length } ∧
      w.wr.data = (headerRecords fl types ++ dataRecords pr fl rows).flatten ∧
      (∀ r ∈ dataRecords pr fl rows,
        Eol fl <:+ r ∧ countDelims fl.Delimiter r = types.length - 1) ∧
      ((∀ t ∈ types, quote ∉ t.Name) → ∀ r ∈ headerRecords fl types,
        Eol fl <:+ r ∧ countDelims fl.Delimiter r = types.length - 1) := by
  obtain ⟨w, e, _, _, d⟩ := Execute_rows pr fl types rows hb hl
  refine ⟨w, e, ?_, ?_, ?_⟩
  · rw [d, specOutput_eq_records]
  · intro r hr
    unfold dataRecords at hr
    obtain ⟨vs, hvs, rfl⟩ := List.mem_map.mp hr
    refine ⟨eol_suffix_specRecord _ _ _, ?_⟩
    rw [countDelims_specRecord _ hd fl _ (dataFields_quoteRunsEven pr vs), dataFields_length,
      hl vs hvs]
  · intro hn r hr
    unfold headerRecords at hr
    split_ifs at hr
    · have : r = specRecord fl.Delimiter (Eol fl) (headerFields types) := by simpa using hr
      subst this
      refine ⟨eol_suffix_specRecord _ _ _, ?_⟩
      rw [countDelims_specRecord _ hd fl _ (headerFields_no_quote types hn),
        headerFields_length]
    · simp at hr

/-- Witness of C5: the scenario of the specification. -/
theorem records_delimiters_witness :
    delimiterOk exampleFlags.Delimiter ∧
      (∀ t ∈ exampleTypes, t.DatabaseTypeName ≠ BINARY) ∧
      (∀ vs ∈ exampleRows, vs.length = exampleTypes.length) ∧
      ∃ w, Execute latin1Tables exampleFlags none
          (.rows exampleTypes (exampleRows.map Row.values)) =
            .done { Csv := w, nextCalls := exampleRows.length + 1,
                    scanCalls := exampleRows.length, counter := exampleRows.length } ∧
        w.wr.data =
          (headerRecords exampleFlags exampleTypes ++
            dataRecords latin1Tables exampleFlags exampleRows).flatten ∧
        (∀ r ∈ dataRecords latin1Tables exampleFlags exampleRows,
          Eol exampleFlags <:+ r ∧
            countDelims exampleFlags.Delimiter r = exampleTypes.length - 1) ∧
        ((∀ t ∈ exampleTypes, quote ∉ t.Name) → ∀ r ∈ headerRecords exampleFlags exampleTypes,
          Eol exampleFlags <:+ r ∧
            countDelims exampleFlags.Delimiter r = exampleTypes.length - 1) :=
  ⟨by decide, by decide, by decide,
    records_delimiters latin1Tables exampleFlags exampleTypes exampleRows (by decide)
      (by decide) (by decide)⟩

/-- The header loop writes a column name as it is, where the row loop doubles
the quotes of a cell: a column named `a","b` gives the header record
`"a","b"`, with one delimiter outside quotes for one column. -/
theorem header_name_not_escaped :
    (Execute latin1Tables ⟨[0x2C], false, true⟩ none
          (.rows [⟨[0x61, 0x22, 0x2C, 0x22, 0x62], ascii "INT", .int64⟩] [])).state.Csv.wr.data =
        [0x22, 0x61, 0x22, 0x2C, 0x22, 0x62, 0x22, 0x0D, 0x0A] ∧
      countDelims [0x2C] [0x22, 0x61, 0x22, 0x2C, 0x22, 0x62, 0x22, 0x0D, 0x0A] = 1 := by
  decide
end Sql2csv
